import Mathlib

/-!
Package `local` of stow: the container.

A shallow embedding of `local/container.go` and the properties of its listing
engine (`flatdirs`, `container.Items`), of `container.Put` and of
`container.Item`.

Conventions of the embedding

* A Go `string` is a finite sequence of bytes. It is embedded as a list of
  characters, one `Char` per byte (for ASCII text this is the text itself).
  Every string operation the code uses (`len`, slicing, `==`,
  `strings.HasPrefix`, `strings.Index`, `strings.Count`) only compares bytes for
  equality, and `path/filepath` only singles out the bytes `/` and `.`.
* `path/filepath` is the Unix build: `filepath.Separator` is `/` and
  `filepath.FromSlash` returns its argument.
* Go `int` values (`count`, `depth`) are integers; a length is a natural number
  and is cast where the code compares it with an `int`.
* The filesystem enters `flatdirs` only through `filepath.Walk`: it is given as
  the sequence of calls `Walk` makes to its callback.
* The operating system enters `Put` and `Item` as the outcome of each call
  they make (`os.Stat`, `os.MkdirAll`, `os.Create`, `io.Copy`).
* A call either returns its values, returns a Go `error`, or stops with a
  run-time panic ("index out of range", "nil pointer dereference").
* `stow.CursorStart` is declared in the parent package `stow`; it is a
  parameter (`CursorStart`) of `Items`.
-/

namespace StowLocal

/-- A Go string, byte by byte. -/
abbrev GoString := List Char

/-! ## Package `strings` -/

namespace strings

/-- Go `strings.HasPrefix(s, p)`: whether `s` begins with `p`. -/
def HasPrefix (s p : GoString) : Bool := p.isPrefixOf s

/-- Go `strings.Index(s, substr)`: the index of the first instance of `substr`
in `s`, or `-1` when there is none. -/
def Index : GoString → GoString → Int
  | [], substr => if substr.isPrefixOf [] then 0 else -1
  | b :: s, substr =>
    if substr.isPrefixOf (b :: s) then 0
    else
      let r := Index s substr
      if r < 0 then -1 else r + 1

/-- Scan of `strings.Count` for a non-empty `substr`: `skip` is the number of
bytes still covered by the instance found last (instances do not overlap). -/
def countFrom (substr : GoString) : Nat → GoString → Nat
  | _, [] => 0
  | skip + 1, _ :: s => countFrom substr skip s
  | 0, b :: s =>
    if substr.isPrefixOf (b :: s) then 1 + countFrom substr (substr.length - 1) s
    else countFrom substr 0 s

/-- Go `strings.Count(s, substr)`: the number of non-overlapping instances of
`substr` in `s`. For an empty `substr` Go answers one more than the number of
code points of `s`; the code under study only passes the one-byte separator. -/
def Count (s substr : GoString) : Nat :=
  if substr = [] then s.length + 1 else countFrom substr 0 s

end strings

/-! ## Errors and panics -/

/-- Go `error` values that the package can return. -/
inductive GoError where
  /-- The value `stow.ErrBadCursor`. -/
  | ErrBadCursor
  /-- The value `stow.ErrNotFound`. -/
  | ErrNotFound
  /-- A value made by `errors.New(text)`. -/
  | errorsNew (text : GoString)
  /-- An error reported by the operating system (`*os.PathError`, ...). -/
  | os (errno : Nat)
  deriving DecidableEq

/-- How a call can end without returning its values. -/
inductive Fault where
  /-- The call returns the error `e` (and zero values otherwise). -/
  | err (e : GoError)
  /-- The call stops with the run-time panic "index out of range". -/
  | indexOutOfRange
  /-- The call stops with the run-time panic "nil pointer dereference". -/
  | nilDereference
  deriving DecidableEq

/-! ## Package `path/filepath` (Unix) -/

namespace filepath

/-- Go `filepath.Separator` on Unix. -/
def Separator : Char := '/'

/-- Go `filepath.FromSlash`: replaces `/` by `Separator`; on Unix the path is
returned unchanged. -/
def FromSlash (path : GoString) : GoString := path

/-- The elements of a path: the pieces between separators (possibly empty). -/
def elements : GoString → List GoString
  | [] => [[]]
  | b :: s =>
    if b = Separator then [] :: elements s
    else
      match elements s with
      | [] => [[b]]
      | e :: es => (b :: e) :: es

/-- One step of the loop of `filepath.Clean`: `out` holds the elements written
so far, last one first. Empty elements and `.` are dropped; `..` removes the
last element written, unless there is none or it is itself a `..` that could
not be resolved, in which case a rooted path drops the `..` and a relative
path keeps it. -/
def cleanStep (rooted : Bool) (out : List GoString) (e : GoString) : List GoString :=
  if e = [] ∨ e = ['.'] then out
  else if e = ['.', '.'] then
    match out with
    | [] => if rooted then [] else [e]
    | top :: rest => if top = ['.', '.'] then e :: out else rest
  else e :: out

/-- The path `Clean` returns, as a pair: whether it is rooted, and its
elements in order. -/
def cleanParts (path : GoString) : Bool × List GoString :=
  match path with
  | [] => (false, [])
  | b :: _ =>
    let rooted : Bool := b = Separator
    (rooted, ((elements path).foldl (cleanStep rooted) []).reverse)

/-- The string of a cleaned path: the elements joined by the separator, after
the root `/` for a rooted path; the empty relative path is `.`. -/
def render (parts : Bool × List GoString) : GoString :=
  let body := [Separator].intercalate parts.2
  if parts.1 then Separator :: body
  else if body = [] then ['.'] else body

/-- Go `filepath.Clean`: the shortest path name equivalent to `path` by purely
lexical processing. -/
def Clean (path : GoString) : GoString := render (cleanParts path)

/-- Go `filepath.Join(elem...)`: the elements from the first non-empty one on
are joined with the separator and the result is cleaned; with no non-empty
element the result is the empty string. -/
def Join (elem : List GoString) : GoString :=
  match elem.dropWhile (fun e => e.isEmpty) with
  | [] => []
  | e :: es => Clean ([Separator].intercalate (e :: es))

/-- Removes the leading elements two cleaned paths have in common. -/
def dropCommon : List GoString → List GoString → List GoString × List GoString
  | b :: base, t :: targ => if t = b then dropCommon base targ else (b :: base, t :: targ)
  | base, targ => (base, targ)

/-- The error of `filepath.Rel`. -/
def relError (basepath targpath : GoString) : GoError :=
  .errorsNew ("Rel: can't make ".toList ++ targpath ++ " relative to ".toList ++ basepath)

/-- Go `filepath.Rel(basepath, targpath)`: a relative path that is lexically
equivalent to `targpath` when joined to `basepath`. Both paths are cleaned;
equal paths give `.`; a rooted and a relative path cannot be related; after the
common leading elements are removed, every remaining element of the base is
left by one `..` (impossible when that element is itself `..`), followed by the
remaining elements of the target. -/
def Rel (basepath targpath : GoString) : Except GoError GoString :=
  let base := cleanParts basepath
  let targ := cleanParts targpath
  if targ = base then .ok ['.']
  else if base.1 ≠ targ.1 then .error (relError basepath targpath)
  else
    match dropCommon base.2 targ.2 with
    | ([], t) => .ok ([Separator].intercalate t)
    | (b :: bs, t) =>
      if b = ['.', '.'] then .error (relError basepath targpath)
      else .ok ([Separator].intercalate ((b :: bs).map (fun _ => ['.', '.']) ++ t))

/-- One call of `filepath.Walk` to its callback `fn(p, info, err)`. -/
structure WalkCall (FileInfo : Type) where
  /-- The path of the visited file or directory. -/
  p : GoString
  /-- The `os.FileInfo` of `p` (not meaningful when `err` is set). -/
  info : FileInfo
  /-- The error `Walk` met on `p`, if any. -/
  err : Option GoError

/-- Go `filepath.Walk(root, fn)`, given the calls it makes on this filesystem:
the callback runs on each in turn, and the first error it returns ends the walk
and is returned. The state `σ` stands for the variables the closure captures. -/
def Walk {FileInfo σ : Type} (calls : List (WalkCall FileInfo))
    (fn : σ → WalkCall FileInfo → Except GoError σ) : σ → Except GoError σ
  | st =>
    match calls with
    | [] => .ok st
    | call :: rest =>
      match fn st call with
      | .error err => .error err
      | .ok st1 => Walk rest fn st1

end filepath

/-! ## Package `sort` -/

namespace sort

/-- Insertion step: `x` moves left past every element it is less than. -/
def insertLast {α : Type} (less : α → α → Bool) (x : α) : List α → List α
  | [] => [x]
  | y :: ys => if less x y then x :: y :: ys else y :: insertLast less x ys

/-- Go `sort.Slice(x, less)`: sorts the slice by `less`. Modelled by insertion
sort, which is what Go runs on slices of at most 12 elements. Go's sort is not
stable: on longer slices the order it gives to elements that compare equal may
differ from the order of this model, and with it the concrete pages and
cursors of a listing. Only two facts carry over to the real code, and the
general properties below rest on these two only: the result is a rearrangement
of the slice (`Slice_perm`), and it is sorted (`Slice_pairwise`). The concrete
evaluations below are on slices of two entries of different depth. -/
def Slice {α : Type} (x : List α) (less : α → α → Bool) : List α :=
  x.foldl (fun sorted a => insertLast less a sorted) []

end sort

/-! ## `local/container.go` -/

/-- The part of `os.FileInfo` the code reads. -/
structure FileInfo where
  /-- Base name of the file: `Name()`. -/
  name : GoString
  /-- Whether the file is a directory: `IsDir()`. -/
  isDir : Bool
  deriving DecidableEq

/-- `type fileinfo struct { os.FileInfo; name string }`. -/
structure fileinfo where
  FileInfo : FileInfo
  name : GoString
  deriving DecidableEq

/-- `func (f fileinfo) Name() string`. -/
def fileinfo.Name (f : fileinfo) : GoString := f.name

/-- The method `IsDir` of the embedded `os.FileInfo`. -/
def fileinfo.IsDir (f : fileinfo) : Bool := f.FileInfo.isDir

/-- `const separator = string(filepath.Separator)`. -/
def separator : GoString := [filepath.Separator]

/-- `type container struct { name string; path string }`. -/
structure container where
  name : GoString
  path : GoString
  deriving DecidableEq

/-- The struct `item` built by `Items`: its path and `contPrefixLen`. -/
structure item where
  path : GoString
  contPrefixLen : Int
  deriving DecidableEq

/-- The filesystem below a root, as `filepath.Walk` presents it. -/
abbrev Tree := List (filepath.WalkCall FileInfo)

/-- The callback `flatdirs` passes to `filepath.Walk`; `list` is the captured
variable. -/
def flatdirsFn (path : GoString) (list : List fileinfo)
    (call : filepath.WalkCall FileInfo) : Except GoError (List fileinfo) :=
  match call.err with
  | some err => .error err
  | none =>
    if call.info.isDir then .ok list
    else
      match filepath.Rel path call.p with
      | .error err => .error err
      | .ok flatname => .ok (list ++ [{ FileInfo := call.info, name := flatname }])

/-- `func flatdirs(path string) ([]os.FileInfo, error)` on the filesystem
`tree`. -/
def flatdirs (tree : Tree) (path : GoString) : Except GoError (List fileinfo) :=
  match filepath.Walk tree (flatdirsFn path) [] with
  | .error err => .error err
  | .ok list =>
    .ok (sort.Slice list (fun a b =>
      decide (strings.Count a.Name separator < strings.Count b.Name separator)))

/-- The loop of `Items` that seeks to the cursor (lines 92-98): the files from
the first one named `cursor` on, or `none` when `ok` stays false. -/
def seekCursor (cursor : GoString) : List fileinfo → Option (List fileinfo)
  | [] => none
  | file :: files =>
    if file.Name = cursor then some (file :: files) else seekCursor cursor files

/-- The page cut of `Items` (lines 103-108): the page and the new cursor.
`files[count]` with a negative `count` is out of range. -/
def cutPage (files : List fileinfo) (count : Int) :
    Except Fault (List fileinfo × GoString) :=
  if (files.length : Int) > count then
    if count < 0 then .error .indexOutOfRange
    else
      match files[count.toNat]? with
      | none => .error .indexOutOfRange
      | some next => .ok (files.take count.toNat, next.Name)
  else .ok (files, [])

/-- The body of the loop over the page in `Items` (lines 111-138) for one
file: `none` for `continue`, `some item` when an item is appended. `p[0]` on an
empty `p` is out of range. -/
def pageItem (c : container) (pfx : GoString) (depth : Int) (f : fileinfo) :
    Except Fault (Option item) :=
  if f.IsDir then .ok none
  else
    let path := filepath.Join [c.path, f.Name]
    let it : item := { path := path, contPrefixLen := (c.path.length : Int) + 1 }
    if pfx.length > 0 && !strings.HasPrefix path pfx then .ok none
    else if pfx.length > 0 && decide (depth > 0) then
      let i := strings.Index path pfx
      if i ≥ 0 then
        match path.drop (i.toNat + pfx.length) with
        | [] => .error .indexOutOfRange
        | b :: rest =>
          let p := if b = '/' then rest else b :: rest
          let n := strings.Count p separator
          if (n : Int) ≥ depth then .ok none else .ok (some it)
      else .ok (some it)
    else .ok (some it)

/-- The loop over the page in `Items` (lines 109-139). -/
def pageItems (c : container) (pfx : GoString) (depth : Int) :
    List fileinfo → Except Fault (List item)
  | [] => .ok []
  | f :: files =>
    match pageItem c pfx depth f with
    | .error e => .error e
    | .ok r =>
      match pageItems c pfx depth files with
      | .error e => .error e
      | .ok items => .ok (r.toList ++ items)

/-- `func (c *container) Items(prefix, cursor string, count, depth int)
([]stow.Item, string, error)` on the filesystem `tree`. -/
def Items (CursorStart : GoString) (tree : Tree) (c : container) (pfx cursor : GoString)
    (count depth : Int) : Except Fault (List item × GoString) :=
  let pfx := filepath.FromSlash pfx
  match flatdirs tree c.path with
  | .error err => .error (.err err)
  | .ok files =>
    match (if cursor ≠ CursorStart then seekCursor cursor files else some files) with
    | none => .error (.err .ErrBadCursor)
    | some files =>
      match cutPage files count with
      | .error e => .error e
      | .ok (files, cursor) =>
        match pageItems c pfx depth files with
        | .error e => .error e
        | .ok items => .ok (items, cursor)

/-! ### `Put` and `Item`: the operating system -/

namespace filepath

/-- Go `filepath.IsAbs` on Unix: the path begins with the separator. -/
def IsAbs (path : GoString) : Bool := strings.HasPrefix path [Separator]

/-- Go `filepath.Dir`: the path up to and including its last separator,
cleaned. -/
def Dir (path : GoString) : GoString :=
  Clean (path.reverse.dropWhile (fun b => b != Separator)).reverse

end filepath

namespace os

/-- The error number `syscall.ENOENT`, "no such file or directory". -/
def ENOENT : Nat := 2

/-- Go `os.IsNotExist(err)`: whether the error reports that a file or directory
does not exist; false for the nil error. -/
def IsNotExist : Option GoError → Bool
  | some (.os errno) => errno == ENOENT
  | _ => false

end os

/-- The operating system as `Put` and `Item` reach it: the outcome of each call
at the time it is made. `Reader` is the type of the streams (`io.Reader`). -/
structure System (Reader : Type) where
  /-- Go `os.Stat(name)`: the pair `(info, err)`; `info` is nil when `err` is set. -/
  Stat : GoString → Option FileInfo × Option GoError
  /-- Go `os.MkdirAll(path, 0777)`: its error, if any. -/
  MkdirAll : GoString → Option GoError
  /-- Go `os.Create(name)`: its error, if any. -/
  Create : GoString → Option GoError
  /-- Go `io.Copy(f, r)` into the file created at `name`: the number of bytes
  copied and the error, if any. -/
  Copy : GoString → Reader → Int × Option GoError

/-- `func (c *container) Put(name string, r io.Reader, size int64, _
map[string]interface{}) (stow.Item, error)`; the last argument is ignored. -/
def Put {Reader : Type} (sys : System Reader) (c : container) (name : GoString) (r : Reader)
    (size : Int) : Except GoError item :=
  let name :=
    match filepath.Rel c.path name with
    | .ok rel => rel
    | .error _ => name
  let path := filepath.Join [c.path, filepath.FromSlash name]
  let it : item := { path := path, contPrefixLen := (c.path.length : Int) + 1 }
  match sys.MkdirAll (filepath.Dir path) with
  | some err => .error err
  | none =>
    match sys.Create path with
    | some err => .error err
    | none =>
      match sys.Copy path r with
      | (_, some err) => .error err
      | (n, none) =>
        if size > 0 ∧ n ≠ size then .error (.errorsNew "bad size".toList)
        else .ok it

/-- `func (c *container) Item(id string) (stow.Item, error)`. When `os.Stat`
fails with an error that is not "not exist", `info` is nil and `info.IsDir()`
dereferences it. -/
def Item {Reader : Type} (sys : System Reader) (c : container) (id : GoString) :
    Except Fault item :=
  let path := if !filepath.IsAbs id then filepath.Join [c.path, filepath.FromSlash id] else id
  match sys.Stat path with
  | (info, err) =>
    if os.IsNotExist err then .error (.err .ErrNotFound)
    else
      match info with
      | none => .error .nilDereference
      | some info =>
        if info.isDir then .error (.err (.errorsNew "unexpected directory".toList))
        else
          match filepath.Rel c.path path with
          | .error err => .error (.err err)
          | .ok _ => .ok { path := path, contPrefixLen := (c.path.length : Int) + 1 }

/-! ## Vocabulary of the specification -/

/-- The flattened entry `flatdirs` appends on one call of `Walk`, if any: a
file that is not a directory, named by its path relative to `path`. -/
def walkedFile (path : GoString) (call : filepath.WalkCall FileInfo) : Option fileinfo :=
  if call.info.isDir then none
  else
    match filepath.Rel path call.p with
    | .error _ => none
    | .ok flatname => some { FileInfo := call.info, name := flatname }

/-- Depth tier of an entry: the number of separators in its name. -/
def depthOf (f : fileinfo) : Nat := strings.Count f.Name separator

/-- The full path of an entry: root joined with relative name. -/
def fullPath (c : container) (f : fileinfo) : GoString := filepath.Join [c.path, f.Name]

/-- The item that stands for an entry of the page: its full path, and the
length of the container root plus one. -/
def itemOf (c : container) (f : fileinfo) : item :=
  { path := fullPath c f, contPrefixLen := (c.path.length : Int) + 1 }

/-- A cursor is valid on a sequence when it is the start sentinel or names one
of its entries. -/
def validCursor (CursorStart : GoString) (files : List fileinfo) (cursor : GoString) : Prop :=
  cursor = CursorStart ∨ ∃ f ∈ files, f.Name = cursor

/-- The remaining sequence `R` of a call: the whole sequence for the start
sentinel, else the suffix that begins at the first entry named by the cursor. -/
def remaining (CursorStart : GoString) (files : List fileinfo) (cursor : GoString) :
    List fileinfo :=
  if cursor = CursorStart then files else files.dropWhile (fun f => f.Name != cursor)

/-- The unfiltered page: the first `k` entries of `R` when `R` has more than
`k` entries, else all of `R`. -/
def specPage (R : List fileinfo) (k : Nat) : List fileinfo :=
  if k < R.length then R.take k else R

/-- The returned cursor: the name of `R[k]` when `R` has more than `k`
entries, else the end sentinel `""`. -/
def specCursor (R : List fileinfo) (k : Nat) : GoString :=
  if h : k < R.length then (R.get ⟨k, h⟩).Name else []

/-- The remainder of a full path after the prefix, with one leading separator
stripped when present. -/
def remainderAfter (path pfx : GoString) : GoString :=
  let p := path.drop pfx.length
  if p.head? = some filepath.Separator then p.tail else p

/-- The pagination loop of a caller: `Items` is called with the cursor, then
with each returned cursor, until the returned cursor is `""`; the result is the
list of pages. `none` when `fuel` calls were not enough. -/
def listPages (CursorStart : GoString) (tree : Tree) (c : container) (pfx : GoString)
    (count depth : Int) : Nat → GoString → Option (Except Fault (List (List item)))
  | 0, _ => none
  | fuel + 1, cursor =>
    match Items CursorStart tree c pfx cursor count depth with
    | .error e => some (.error e)
    | .ok (items, next) =>
      if next = [] then some (.ok [items])
      else
        match listPages CursorStart tree c pfx count depth fuel next with
        | some (.ok pages) => some (.ok (items :: pages))
        | r => r

/-- The path an id resolves to: an absolute id itself, any other id joined to
the container root. -/
def resolvedPath (c : container) (id : GoString) : GoString :=
  if filepath.IsAbs id = true then id else filepath.Join [c.path, id]

/-- The number of calls of a pagination loop over `n` entries with page size
`k`: the ceiling of `n / k`, and at least one. -/
def expectedCalls (n k : Nat) : Nat := max 1 ((n + k - 1) / k)

/-! ## Sample filesystems -/

/-- File information of a regular file or of a directory. -/
def sampleInfo (name : String) (isDir : Bool) : FileInfo := { name := name.toList, isDir := isDir }

/-- One successful call of `Walk`. -/
def visit (p name : String) (isDir : Bool) : filepath.WalkCall FileInfo :=
  { p := p.toList, info := sampleInfo name isDir, err := none }

/-- The walk of the root `/r` that holds the files `a/b/c.txt` and `a/x.txt`. -/
def treeAbs : Tree :=
  [visit "/r" "r" true, visit "/r/a" "a" true, visit "/r/a/b" "b" true,
   visit "/r/a/b/c.txt" "c.txt" false, visit "/r/a/x.txt" "x.txt" false]

/-- The container rooted at `/r`. -/
def contAbs : container := { name := "r".toList, path := "/r".toList }

/-- The entry of `a/x.txt`. -/
def entryX : fileinfo := { FileInfo := sampleInfo "x.txt" false, name := "a/x.txt".toList }

/-- The entry of `a/b/c.txt`. -/
def entryC : fileinfo := { FileInfo := sampleInfo "c.txt" false, name := "a/b/c.txt".toList }

/-- The walk of the root `.` that holds the same two files. -/
def treeRel : Tree :=
  [visit "." "." true, visit "a" "a" true, visit "a/b" "b" true,
   visit "a/b/c.txt" "c.txt" false, visit "a/x.txt" "x.txt" false]

/-- The container rooted at `.`. -/
def contRel : container := { name := "r".toList, path := ".".toList }

/-- The walk of the root `/r` that holds the files `ab` and `abc/f.txt`. -/
def treeAb : Tree :=
  [visit "/r" "r" true, visit "/r/ab" "ab" false, visit "/r/abc" "abc" true,
   visit "/r/abc/f.txt" "f.txt" false]

/-- The entry of `ab`. -/
def entryAb : fileinfo := { FileInfo := sampleInfo "ab" false, name := "ab".toList }

/-- The entry of `abc/f.txt`. -/
def entryF : fileinfo := { FileInfo := sampleInfo "f.txt" false, name := "abc/f.txt".toList }

/-- The start sentinel taken in the examples: the empty string. -/
def startCursor : GoString := []

/-- The error number `syscall.EACCES`, "permission denied". -/
def EACCES : Nat := 13

/-- A system over the root `/r`: `/r/a/x.txt` is a regular file, `/r/a` is a
directory, `/r/locked/f` cannot be examined (permission denied on `/r/locked`),
and nothing else exists; directories and files can be created, and a stream,
given by its bytes, is copied whole. -/
def sampleSystem : System GoString where
  Stat := fun name =>
    if name = "/r/a/x.txt".toList then (some (sampleInfo "x.txt" false), none)
    else if name = "/r/a".toList then (some (sampleInfo "a" true), none)
    else if name = "/r/locked/f".toList then (none, some (.os EACCES))
    else (none, some (.os os.ENOENT))
  MkdirAll := fun _ => none
  Create := fun _ => none
  Copy := fun _ r => ((r.length : Int), none)

/-! ## Properties of the library functions: `sort` -/

theorem insertLast_perm {α : Type} (less : α → α → Bool) (x : α) (l : List α) :
    (sort.insertLast less x l).Perm (x :: l) := by
  induction l with
  | nil => exact List.Perm.refl _
  | cons y ys ih =>
    unfold sort.insertLast
    split
    · exact List.Perm.refl _
    · exact (List.Perm.cons y ih).trans (List.Perm.swap x y ys)

theorem foldl_insertLast_perm {α : Type} (less : α → α → Bool) (l acc : List α) :
    (l.foldl (fun sorted a => sort.insertLast less a sorted) acc).Perm (acc ++ l) := by
  induction l generalizing acc with
  | nil => simp
  | cons a l ih =>
    simp only [List.foldl_cons]
    refine (ih _).trans ?_
    refine ((insertLast_perm less a acc).append_right l).trans ?_
    simpa using (@List.perm_middle _ a acc l).symm

/-- The sorted slice is a rearrangement of the slice. -/
theorem Slice_perm {α : Type} (less : α → α → Bool) (l : List α) :
    (sort.Slice l less).Perm l := by
  simpa [sort.Slice] using foldl_insertLast_perm less l []

theorem insertLast_pairwise {α : Type} (key : α → Nat) (x : α) (l : List α)
    (h : l.Pairwise (fun a b => key a ≤ key b)) :
    (sort.insertLast (fun a b => decide (key a < key b)) x l).Pairwise
      (fun a b => key a ≤ key b) := by
  induction l with
  | nil => simp [sort.insertLast]
  | cons y ys ih =>
    unfold sort.insertLast
    rw [List.pairwise_cons] at h
    split
    · rename_i hlt
      have hlt1 : key x < key y := by simpa using hlt
      refine List.pairwise_cons.2 ⟨?_, List.pairwise_cons.2 h⟩
      intro z hz
      rcases List.mem_cons.1 hz with rfl | hz
      · exact hlt1.le
      · exact hlt1.le.trans (h.1 z hz)
    · rename_i hlt
      have hge : key y ≤ key x := by simpa using hlt
      refine List.pairwise_cons.2 ⟨?_, ih h.2⟩
      intro z hz
      rcases List.mem_cons.1 ((insertLast_perm _ x ys).subset hz) with rfl | hz
      · exact hge
      · exact h.1 z hz

/-- A slice sorted by a numeric key is non-decreasing in the key. -/
theorem Slice_pairwise {α : Type} (key : α → Nat) (l : List α) :
    (sort.Slice l (fun a b => decide (key a < key b))).Pairwise
      (fun a b => key a ≤ key b) := by
  unfold sort.Slice
  suffices h : ∀ acc : List α, acc.Pairwise (fun a b => key a ≤ key b) →
      (l.foldl (fun sorted a => sort.insertLast (fun a b => decide (key a < key b)) a sorted)
        acc).Pairwise (fun a b => key a ≤ key b) from h [] List.Pairwise.nil
  induction l with
  | nil => intro acc h; simpa using h
  | cons a l ih =>
    intro acc h
    simp only [List.foldl_cons]
    exact ih _ (insertLast_pairwise key a acc h)

/-! ## Properties of the library functions: `strings` -/

theorem Index_at_start (s pfx : GoString) (h : pfx.isPrefixOf s = true) :
    strings.Index s pfx = 0 := by
  cases s with
  | nil => simp [strings.Index, h]
  | cons b s => simp [strings.Index, h]

/-! ## Properties of the library functions: `path/filepath` -/

theorem cleanStep_ne_nil (rooted : Bool) (out : List GoString) (e : GoString)
    (h : ∀ x ∈ out, x ≠ []) : ∀ x ∈ filepath.cleanStep rooted out e, x ≠ [] := by
  unfold filepath.cleanStep
  split
  · exact h
  · rename_i h1
    split
    · rename_i h2
      cases out with
      | nil =>
        cases rooted <;> simp [h2]
      | cons top rest =>
        simp only
        split
        · intro x hx
          rcases List.mem_cons.1 hx with rfl | hx
          · simp [h2]
          · exact h x hx
        · intro x hx
          exact h x (List.mem_cons_of_mem _ hx)
    · intro x hx
      rcases List.mem_cons.1 hx with rfl | hx
      · intro hnil; exact h1 (Or.inl hnil)
      · exact h x hx

theorem foldl_cleanStep_ne_nil (rooted : Bool) (es out : List GoString)
    (h : ∀ x ∈ out, x ≠ []) : ∀ x ∈ es.foldl (filepath.cleanStep rooted) out, x ≠ [] := by
  induction es generalizing out with
  | nil => simpa using h
  | cons e es ih =>
    simp only [List.foldl_cons]
    exact ih _ (cleanStep_ne_nil rooted out e h)

/-- A cleaned path has no empty element. -/
theorem cleanParts_ne_nil (path : GoString) : ∀ x ∈ (filepath.cleanParts path).2, x ≠ [] := by
  unfold filepath.cleanParts
  cases path with
  | nil => simp
  | cons b s =>
    simp only [List.mem_reverse]
    exact foldl_cleanStep_ne_nil _ _ [] (by simp)

theorem dropCommon_nil_nil (base targ : List GoString)
    (h : filepath.dropCommon base targ = ([], [])) : targ = base := by
  induction base generalizing targ with
  | nil =>
    cases targ <;> simp_all [filepath.dropCommon]
  | cons b base ih =>
    cases targ with
    | nil => simp [filepath.dropCommon] at h
    | cons t targ =>
      unfold filepath.dropCommon at h
      split at h
      · rename_i heq
        rw [heq, ih targ h]
      · simp at h

theorem dropCommon_subset (base targ : List GoString) :
    ∀ x ∈ (filepath.dropCommon base targ).2, x ∈ targ := by
  induction base generalizing targ with
  | nil => cases targ <;> simp [filepath.dropCommon]
  | cons b base ih =>
    cases targ with
    | nil => simp [filepath.dropCommon]
    | cons t targ =>
      unfold filepath.dropCommon
      split
      · intro x hx
        exact List.mem_cons_of_mem _ (ih targ x hx)
      · intro x hx; exact hx

theorem intercalate_cons_ne_nil (sep e : GoString) (es : List GoString) (he : e ≠ []) :
    sep.intercalate (e :: es) ≠ [] := by
  cases e with
  | nil => exact absurd rfl he
  | cons b e =>
    cases es <;> simp [List.intercalate, List.intersperse]

/-- The relative path `filepath.Rel` returns is never the empty string. -/
theorem Rel_ne_nil (basepath targpath flatname : GoString)
    (h : filepath.Rel basepath targpath = .ok flatname) : flatname ≠ [] := by
  unfold filepath.Rel at h
  simp only at h
  split at h
  · cases h; simp
  · rename_i hne
    split at h
    · simp at h
    · rename_i hroot
      split at h
      · rename_i t hdc
        cases h
        cases t with
        | nil =>
          exfalso
          apply hne
          have := dropCommon_nil_nil _ _ hdc
          have hr : (filepath.cleanParts basepath).1 = (filepath.cleanParts targpath).1 := by
            simpa using hroot
          exact Prod.ext hr.symm this
        | cons e es =>
          apply intercalate_cons_ne_nil
          apply cleanParts_ne_nil targpath
          apply dropCommon_subset (filepath.cleanParts basepath).2
          rw [hdc]; simp
      · rename_i b bs t hdc
        split at h
        · simp at h
        · cases h
          simp only [List.map_cons, List.cons_append]
          apply intercalate_cons_ne_nil
          simp

theorem Clean_ne_nil (path : GoString) : filepath.Clean path ≠ [] := by
  unfold filepath.Clean filepath.render
  simp only
  split
  · simp
  · split
    · simp
    · assumption

theorem elements_ne_nil (s : GoString) : filepath.elements s ≠ [] := by
  cases s with
  | nil => simp [filepath.elements]
  | cons b s =>
    unfold filepath.elements
    split
    · simp
    · split <;> simp

theorem elements_cons (b : Char) (s : GoString) :
    filepath.elements (b :: s) =
      if b = filepath.Separator then [] :: filepath.elements s
      else
        match filepath.elements s with
        | [] => [[b]]
        | e :: es => (b :: e) :: es := by
  rfl

theorem elements_append (s t : GoString) :
    filepath.elements (s ++ filepath.Separator :: t) =
      filepath.elements s ++ filepath.elements t := by
  induction s with
  | nil =>
    rw [List.nil_append, elements_cons, if_pos rfl]
    rfl
  | cons b s ih =>
    rw [List.cons_append, elements_cons, elements_cons b s, ih]
    by_cases hb : b = filepath.Separator
    · simp only [hb, if_true, List.cons_append]
    · simp only [hb, if_false]
      cases hs : filepath.elements s with
      | nil => exact absurd hs (elements_ne_nil s)
      | cons e es => simp

theorem cleanParts_child (q e : GoString) (hq : q ≠ [])
    (he : filepath.elements e = [e]) (h0 : e ≠ []) (h1 : e ≠ ['.']) (h2 : e ≠ ['.', '.']) :
    filepath.cleanParts (q ++ filepath.Separator :: e) =
      ((filepath.cleanParts q).1, (filepath.cleanParts q).2 ++ [e]) := by
  cases q with
  | nil => exact absurd rfl hq
  | cons b q =>
    have happ := elements_append (b :: q) e
    simp only [List.cons_append] at happ
    simp only [filepath.cleanParts, List.cons_append, happ, he, List.foldl_append,
      List.foldl_cons, List.foldl_nil]
    simp [filepath.cleanStep, h0, h1, h2]

theorem intercalate_append_singleton (sep e : GoString) (qs : List GoString) (hqs : qs ≠ []) :
    sep.intercalate (qs ++ [e]) = sep.intercalate qs ++ sep ++ e := by
  induction qs with
  | nil => exact absurd rfl hqs
  | cons q qs ih =>
    cases qs with
    | nil => simp [List.intercalate, List.intersperse]
    | cons q2 qs =>
      have := ih (by simp)
      simp only [List.intercalate, List.cons_append, List.intersperse, List.flatten_cons,
        List.append_assoc, List.append_eq] at this ⊢
      rw [this]

theorem render_child (r : Bool) (qs : List GoString) (e : GoString) (hqs : qs ≠ [])
    (hne : ∀ x ∈ qs, x ≠ []) :
    filepath.render (r, qs ++ [e]) = filepath.render (r, qs) ++ filepath.Separator :: e := by
  cases qs with
  | nil => exact absurd rfl hqs
  | cons q qs =>
    have hq : q ≠ [] := hne q (List.mem_cons_self _ _)
    have hb1 : [filepath.Separator].intercalate (q :: qs) ≠ [] :=
      intercalate_cons_ne_nil _ _ _ hq
    have hb2 : [filepath.Separator].intercalate (q :: (qs ++ [e])) ≠ [] :=
      intercalate_cons_ne_nil _ _ _ hq
    have happ := intercalate_append_singleton [filepath.Separator] e (q :: qs) (by simp)
    simp only [List.cons_append] at happ
    unfold filepath.render
    simp only [List.cons_append, hb1, hb2, if_false]
    cases r
    · simp [happ]
    · simp [happ]

/-- Cleaning a path that gains one plain element. -/
theorem Clean_child (q e : GoString) (hq : q ≠ []) (hparts : (filepath.cleanParts q).2 ≠ [])
    (he : filepath.elements e = [e]) (h0 : e ≠ []) (h1 : e ≠ ['.']) (h2 : e ≠ ['.', '.']) :
    filepath.Clean (q ++ filepath.Separator :: e) = filepath.Clean q ++ filepath.Separator :: e ∧
      (filepath.cleanParts (q ++ filepath.Separator :: e)).2 ≠ [] := by
  unfold filepath.Clean
  rw [cleanParts_child q e hq he h0 h1 h2]
  refine ⟨render_child _ _ e hparts (cleanParts_ne_nil q), by simp⟩

theorem Join_pair (root name : GoString) (hn : name ≠ []) :
    filepath.Join [root, name] =
      filepath.Clean (if root = [] then name else root ++ filepath.Separator :: name) := by
  unfold filepath.Join
  cases root with
  | nil =>
    cases name with
    | nil => exact absurd rfl hn
    | cons b name => simp [List.dropWhile_cons, List.intercalate, List.intersperse]
  | cons b root => simp [List.dropWhile_cons, List.intercalate, List.intersperse]

theorem Join_pair_ne_nil (root name : GoString) (hn : name ≠ []) :
    filepath.Join [root, name] ≠ [] := by
  rw [Join_pair root name hn]
  exact Clean_ne_nil _

/-- A plain element joined to any root leaves a path with at least one element. -/
theorem cleanParts_pair_ne_nil (root name : GoString) (hn : name ≠ [])
    (hname : filepath.elements name = [name]) (hn1 : name ≠ ['.']) (hn2 : name ≠ ['.', '.']) :
    (filepath.cleanParts
      (if root = [] then name else root ++ filepath.Separator :: name)).2 ≠ [] := by
  by_cases hr : root = []
  · simp only [hr, if_true]
    cases name with
    | nil => exact absurd rfl hn
    | cons b name =>
      simp only [filepath.cleanParts, hname, List.foldl_cons, List.foldl_nil]
      simp [filepath.cleanStep, hn1, hn2]
  · simp only [hr, if_false]
    rw [cleanParts_child root name hr hname hn hn1 hn2]
    simp

/-- Joining a root with a name that gains one plain element. -/
theorem Join_child (root name e : GoString) (hn : name ≠ [])
    (hparts : (filepath.cleanParts
      (if root = [] then name else root ++ filepath.Separator :: name)).2 ≠ [])
    (he : filepath.elements e = [e]) (h0 : e ≠ []) (h1 : e ≠ ['.']) (h2 : e ≠ ['.', '.']) :
    filepath.Join [root, name ++ filepath.Separator :: e] =
        filepath.Join [root, name] ++ filepath.Separator :: e ∧
      (filepath.cleanParts
        (if root = [] then name ++ filepath.Separator :: e
          else root ++ filepath.Separator :: (name ++ filepath.Separator :: e))).2 ≠ [] := by
  rw [Join_pair root name hn, Join_pair root _ (by simp)]
  by_cases hr : root = []
  · simp only [hr, if_true] at hparts ⊢
    exact Clean_child name e hn hparts he h0 h1 h2
  · simp only [hr, if_false] at hparts ⊢
    have : root ++ filepath.Separator :: (name ++ filepath.Separator :: e) =
        (root ++ filepath.Separator :: name) ++ filepath.Separator :: e := by simp
    rw [this]
    exact Clean_child _ e (by simp) hparts he h0 h1 h2

/-! ## Properties of `flatdirs` -/

/-- The walk of `flatdirs` appends, in walk order, the entry of every visited
file that is not a directory. -/
theorem Walk_flatdirsFn (path : GoString) (tree : Tree) (init list : List fileinfo)
    (h : filepath.Walk tree (flatdirsFn path) init = .ok list) :
    list = init ++ tree.filterMap (walkedFile path) := by
  induction tree generalizing init with
  | nil =>
    unfold filepath.Walk at h
    simp at h
    simp [h]
  | cons call rest ih =>
    unfold filepath.Walk at h
    simp only at h
    cases hfn : flatdirsFn path init call with
    | error e => rw [hfn] at h; simp at h
    | ok st =>
      rw [hfn] at h
      simp only at h
      have hst := ih st h
      unfold flatdirsFn at hfn
      cases herr : call.err with
      | some e => rw [herr] at hfn; simp at hfn
      | none =>
        rw [herr] at hfn
        simp only at hfn
        by_cases hd : call.info.isDir = true
        · rw [if_pos hd] at hfn
          cases hfn
          simp [hst, List.filterMap_cons, walkedFile, hd]
        · rw [if_neg hd] at hfn
          cases hrel : filepath.Rel path call.p with
          | error e => rw [hrel] at hfn; simp at hfn
          | ok n =>
            rw [hrel] at hfn
            cases hfn
            simp [hst, List.filterMap_cons, walkedFile, hd, hrel]

/-- The result of `flatdirs` is the sorted list of the walked files. -/
theorem flatdirs_eq (tree : Tree) (path : GoString) (files : List fileinfo)
    (h : flatdirs tree path = .ok files) :
    files = sort.Slice (tree.filterMap (walkedFile path))
      (fun a b => decide (depthOf a < depthOf b)) := by
  unfold flatdirs at h
  cases hw : filepath.Walk tree (flatdirsFn path) [] with
  | error e => rw [hw] at h; simp at h
  | ok list =>
    rw [hw] at h
    have hl := Walk_flatdirsFn path tree [] list hw
    simp only [List.nil_append] at hl
    simp only [Except.ok.injEq] at h
    rw [← h, hl]
    rfl

theorem flatdirs_mem (tree : Tree) (path : GoString) (files : List fileinfo)
    (h : flatdirs tree path = .ok files) (f : fileinfo) (hf : f ∈ files) :
    ∃ call ∈ tree, walkedFile path call = some f := by
  rw [flatdirs_eq tree path files h] at hf
  have := (Slice_perm _ _).subset hf
  simpa [List.mem_filterMap] using this

/-- An entry returned by `flatdirs` is never a directory. -/
theorem flatdirs_not_dir (tree : Tree) (path : GoString) (files : List fileinfo)
    (h : flatdirs tree path = .ok files) (f : fileinfo) (hf : f ∈ files) :
    f.IsDir = false := by
  obtain ⟨call, _, hc⟩ := flatdirs_mem tree path files h f hf
  unfold walkedFile at hc
  split at hc
  · simp at hc
  · rename_i hd
    split at hc
    · simp at hc
    · simp only [Option.some.injEq] at hc
      rw [← hc]
      simpa [fileinfo.IsDir] using hd

/-- An entry returned by `flatdirs` never has the empty name. -/
theorem flatdirs_name_ne_nil (tree : Tree) (path : GoString) (files : List fileinfo)
    (h : flatdirs tree path = .ok files) (f : fileinfo) (hf : f ∈ files) :
    f.Name ≠ [] := by
  obtain ⟨call, _, hc⟩ := flatdirs_mem tree path files h f hf
  unfold walkedFile at hc
  split at hc
  · simp at hc
  · split at hc
    · simp at hc
    · rename_i n hrel
      simp only [Option.some.injEq] at hc
      rw [← hc]
      exact Rel_ne_nil _ _ _ hrel

theorem flatdirs_sorted (tree : Tree) (path : GoString) (files : List fileinfo)
    (h : flatdirs tree path = .ok files) :
    files.Pairwise (fun a b => depthOf a ≤ depthOf b) := by
  rw [flatdirs_eq tree path files h]
  exact Slice_pairwise depthOf _

/-! ## Properties of the steps of `Items`: cursor and page cut -/

theorem seekCursor_eq (cursor : GoString) (files : List fileinfo) :
    seekCursor cursor files =
      if (∃ f ∈ files, f.Name = cursor) then
        some (files.dropWhile (fun f => f.Name != cursor))
      else none := by
  induction files with
  | nil => simp [seekCursor]
  | cons f files ih =>
    unfold seekCursor
    by_cases hf : f.Name = cursor
    · simp [hf, List.dropWhile_cons]
    · rw [if_neg hf, ih]
      simp [hf, List.dropWhile_cons]

/-- The seek of `Items`: a valid cursor leaves the remaining sequence. -/
theorem seek_valid (CursorStart cursor : GoString) (files : List fileinfo)
    (h : validCursor CursorStart files cursor) :
    (if cursor ≠ CursorStart then seekCursor cursor files else some files) =
      some (remaining CursorStart files cursor) := by
  unfold remaining
  by_cases hc : cursor = CursorStart
  · simp [hc]
  · rcases h with h | h
    · exact absurd h hc
    · simp [hc, seekCursor_eq, h]

theorem seek_invalid (CursorStart cursor : GoString) (files : List fileinfo)
    (h : ¬ validCursor CursorStart files cursor) :
    (if cursor ≠ CursorStart then seekCursor cursor files else some files) = none := by
  unfold validCursor at h
  push_neg at h
  rw [if_pos h.1, seekCursor_eq]
  simp only [ite_eq_right_iff]
  intro ⟨f, hf, hn⟩
  exact absurd hn (h.2 f hf)

theorem cutPage_ofNat (files : List fileinfo) (k : Nat) :
    cutPage files (k : Int) = .ok (specPage files k, specCursor files k) := by
  unfold cutPage specPage specCursor
  by_cases hk : k < files.length
  · have h1 : (files.length : Int) > (k : Int) := by exact_mod_cast hk
    have h2 : ¬ ((k : Int) < 0) := by omega
    rw [if_pos h1, if_neg h2]
    simp [hk, List.getElem?_eq_getElem]
  · have h1 : ¬ ((files.length : Int) > (k : Int)) := by
      intro h; apply hk; exact_mod_cast h
    rw [if_neg h1]
    simp [hk]

theorem cutPage_neg (files : List fileinfo) (count : Int) (hc : count < 0) :
    cutPage files count = .error .indexOutOfRange := by
  unfold cutPage
  have h1 : (files.length : Int) > count := by omega
  rw [if_pos h1, if_pos hc]

theorem cutPage_error (files : List fileinfo) (count : Int) (e : Fault)
    (h : cutPage files count = .error e) : e = .indexOutOfRange := by
  unfold cutPage at h
  split at h
  · split at h
    · cases h; rfl
    · split at h
      · cases h; rfl
      · simp at h
  · simp at h

theorem remaining_subset (CursorStart cursor : GoString) (files : List fileinfo) :
    ∀ f ∈ remaining CursorStart files cursor, f ∈ files := by
  unfold remaining
  split
  · exact fun f hf => hf
  · exact fun f hf => (List.dropWhile_suffix _).subset hf

theorem specPage_subset (R : List fileinfo) (k : Nat) : ∀ f ∈ specPage R k, f ∈ R := by
  unfold specPage
  split
  · exact fun f hf => List.mem_of_mem_take hf
  · exact fun f hf => hf

theorem page_subset_files (CursorStart cursor : GoString) (files : List fileinfo) (k : Nat) :
    ∀ f ∈ specPage (remaining CursorStart files cursor) k, f ∈ files :=
  fun f hf => remaining_subset _ _ _ f (specPage_subset _ _ f hf)

theorem dropWhile_name_of_nodup (pre rest : List fileinfo) (f : fileinfo)
    (hnd : ((pre ++ f :: rest).map fileinfo.Name).Nodup) :
    (pre ++ f :: rest).dropWhile (fun g => g.Name != f.Name) = f :: rest := by
  induction pre with
  | nil => simp [List.dropWhile_cons]
  | cons g pre ih =>
    simp only [List.cons_append, List.map_cons, List.nodup_cons] at hnd
    have hg : g.Name ≠ f.Name := by
      intro heq
      apply hnd.1
      rw [heq]
      simp
    simp only [List.cons_append, List.dropWhile_cons]
    simp only [bne_iff_ne, ne_eq, hg, not_false_eq_true, if_true]
    exact ih hnd.2

/-! ## Properties of the steps of `Items`: the filter -/

theorem remainderAfter_append (pfx t : GoString) :
    remainderAfter (pfx ++ filepath.Separator :: t) pfx = t := by
  unfold remainderAfter
  simp

theorem pageItem_cases (c : container) (pfx : GoString) (depth : Int) (f : fileinfo) :
    pageItem c pfx depth f = .error .indexOutOfRange ∨ pageItem c pfx depth f = .ok none ∨
      pageItem c pfx depth f = .ok (some (itemOf c f)) := by
  unfold pageItem
  simp only
  repeat' split
  all_goals simp [itemOf, fullPath]

theorem pageItem_error (c : container) (pfx : GoString) (depth : Int) (f : fileinfo) (e : Fault)
    (h : pageItem c pfx depth f = .error e) : e = .indexOutOfRange := by
  rcases pageItem_cases c pfx depth f with h1 | h1 | h1 <;> rw [h1] at h <;> cases h
  rfl

theorem pageItem_some (c : container) (pfx : GoString) (depth : Int) (f : fileinfo) (it : item)
    (h : pageItem c pfx depth f = .ok (some it)) : it = itemOf c f ∧ f.IsDir = false := by
  constructor
  · rcases pageItem_cases c pfx depth f with h1 | h1 | h1 <;> rw [h1] at h <;> simp at h
    exact h.symm
  · unfold pageItem at h
    by_contra hd
    simp only [Bool.not_eq_false] at hd
    simp [hd] at h

theorem pageItem_dir (c : container) (pfx : GoString) (depth : Int) (f : fileinfo)
    (hd : f.IsDir = true) : pageItem c pfx depth f = .ok none := by
  unfold pageItem
  simp [hd]

theorem pageItem_unmatched (c : container) (pfx : GoString) (depth : Int) (f : fileinfo)
    (hp : pfx ≠ []) (hpre : ¬ pfx <+: fullPath c f) : pageItem c pfx depth f = .ok none := by
  have hl : 0 < pfx.length := List.length_pos.2 hp
  have hb : pfx.isPrefixOf (filepath.Join [c.path, f.Name]) = false := by
    rw [Bool.eq_false_iff]
    intro ht
    exact hpre (by simpa [fullPath] using ht)
  unfold pageItem
  by_cases hd : f.IsDir = true
  · simp [hd]
  · simp [hd, hl, strings.HasPrefix, hb]

/-- With depth 0 (or less) only the prefix test decides. -/
theorem pageItem_unlimited (c : container) (pfx : GoString) (depth : Int) (f : fileinfo)
    (hd : f.IsDir = false) (hp : pfx ≠ []) (h0 : depth ≤ 0) :
    pageItem c pfx depth f =
      .ok (if pfx <+: fullPath c f then some (itemOf c f) else none) := by
  have hl : 0 < pfx.length := List.length_pos.2 hp
  have hdep : ¬ (depth > 0) := by omega
  unfold pageItem
  by_cases hpre : pfx <+: fullPath c f
  · have hb : pfx.isPrefixOf (filepath.Join [c.path, f.Name]) = true := by
      simpa [fullPath] using hpre
    rw [if_pos hpre]
    simp [hd, hl, hdep, strings.HasPrefix, hb, itemOf, fullPath]
  · have hb : pfx.isPrefixOf (filepath.Join [c.path, f.Name]) = false := by
      rw [Bool.eq_false_iff]
      intro ht
      exact hpre (by simpa [fullPath] using ht)
    rw [if_neg hpre]
    simp [hd, hl, strings.HasPrefix, hb]

/-- The depth test on an entry whose full path extends the prefix. -/
theorem pageItem_depth (c : container) (pfx : GoString) (depth : Int) (f : fileinfo)
    (hd : f.IsDir = false) (hp : pfx ≠ []) (h1 : 1 ≤ depth)
    (hpre : pfx <+: fullPath c f) (hlen : pfx.length < (fullPath c f).length) :
    pageItem c pfx depth f =
      .ok (if (strings.Count (remainderAfter (fullPath c f) pfx) separator : Int) < depth
        then some (itemOf c f) else none) := by
  have hl : 0 < pfx.length := List.length_pos.2 hp
  have hdep : depth > 0 := by omega
  have hb : pfx.isPrefixOf (filepath.Join [c.path, f.Name]) = true := by
    simpa [fullPath] using hpre
  have hi := Index_at_start _ _ hb
  unfold pageItem
  simp only [hd, hl, hdep, strings.HasPrefix, hb, hi]
  simp only [Bool.false_eq_true, if_false, decide_True, Bool.not_true, Bool.and_false,
    Bool.and_self, if_true, ge_iff_le, le_refl, Int.toNat_zero, zero_add]
  unfold remainderAfter
  cases hdrop : List.drop pfx.length (fullPath c f) with
  | nil =>
    exfalso
    have := congrArg List.length hdrop
    simp at this
    omega
  | cons b rest =>
    have hdrop2 : List.drop pfx.length (filepath.Join [c.path, f.Name]) = b :: rest := hdrop
    rw [hdrop2]
    simp only [List.head?_cons, Option.some.injEq, List.tail_cons, filepath.Separator]
    by_cases hb : b = '/'
    · simp only [hb, if_true]
      by_cases hc : (strings.Count rest separator : Int) < depth
      · simp [hc, itemOf, fullPath]
      · simp [hc]
    · simp only [hb, if_false]
      by_cases hc : (strings.Count (b :: rest) separator : Int) < depth
      · simp [hc, itemOf, fullPath]
      · simp [hc]

/-- The remainder is empty: `p[0]` is out of range. -/
theorem pageItem_exact (c : container) (pfx : GoString) (depth : Int) (f : fileinfo)
    (hd : f.IsDir = false) (hp : pfx ≠ []) (h1 : 1 ≤ depth)
    (heq : fullPath c f = pfx) :
    pageItem c pfx depth f = .error .indexOutOfRange := by
  have hl : 0 < pfx.length := List.length_pos.2 hp
  have hdep : depth > 0 := by omega
  have hb : pfx.isPrefixOf (filepath.Join [c.path, f.Name]) = true := by
    have : filepath.Join [c.path, f.Name] = pfx := heq
    rw [this]; simp
  have hi := Index_at_start _ _ hb
  have hj : filepath.Join [c.path, f.Name] = pfx := heq
  unfold pageItem
  simp only [hd, hl, hdep, strings.HasPrefix, hb, hi]
  simp [hj]

theorem pageItem_ok_of_ne (c : container) (pfx : GoString) (depth : Int) (f : fileinfo)
    (hp : pfx ≠ []) (h1 : 1 ≤ depth) (hne : fullPath c f ≠ pfx) :
    ∃ r, pageItem c pfx depth f = .ok r := by
  by_cases hd : f.IsDir = true
  · exact ⟨_, pageItem_dir c pfx depth f hd⟩
  · by_cases hpre : pfx <+: fullPath c f
    · refine ⟨_, pageItem_depth c pfx depth f (by simpa using hd) hp h1 hpre ?_⟩
      rcases Nat.lt_or_ge pfx.length (fullPath c f).length with h | h
      · exact h
      · exact absurd (hpre.eq_of_length_le h).symm hne
    · exact ⟨_, pageItem_unmatched c pfx depth f hp hpre⟩

theorem pageItems_error (c : container) (pfx : GoString) (depth : Int) (files : List fileinfo)
    (e : Fault) (h : pageItems c pfx depth files = .error e) : e = .indexOutOfRange := by
  induction files with
  | nil => simp [pageItems] at h
  | cons f files ih =>
    unfold pageItems at h
    split at h
    · rename_i e1 he1
      cases h
      exact pageItem_error c pfx depth f _ he1
    · split at h
      · rename_i e1 he1
        cases h
        exact ih he1
      · simp at h

theorem pageItems_unfiltered (c : container) (depth : Int) (files : List fileinfo)
    (hd : ∀ f ∈ files, f.IsDir = false) :
    pageItems c [] depth files = .ok (files.map (itemOf c)) := by
  induction files with
  | nil => simp [pageItems]
  | cons f files ih =>
    unfold pageItems
    have hf : pageItem c [] depth f = .ok (some (itemOf c f)) := by
      unfold pageItem
      simp [hd f (List.mem_cons_self _ _), itemOf, fullPath]
    rw [hf, ih (fun g hg => hd g (List.mem_cons_of_mem _ hg))]
    simp

theorem pageItems_of_forall (c : container) (pfx : GoString) (depth : Int)
    (g : fileinfo → Option item) (files : List fileinfo)
    (h : ∀ f ∈ files, pageItem c pfx depth f = .ok (g f)) :
    pageItems c pfx depth files = .ok (files.filterMap g) := by
  induction files with
  | nil => simp [pageItems]
  | cons f files ih =>
    unfold pageItems
    rw [h f (List.mem_cons_self _ _), ih (fun x hx => h x (List.mem_cons_of_mem _ hx))]
    cases hg : g f <;> simp [List.filterMap_cons, hg]

theorem pageItems_exact (c : container) (pfx : GoString) (depth : Int) (files : List fileinfo)
    (f : fileinfo) (hf : f ∈ files)
    (h : pageItem c pfx depth f = .error .indexOutOfRange) :
    pageItems c pfx depth files = .error .indexOutOfRange := by
  cases hp : pageItems c pfx depth files with
  | error e => rw [pageItems_error c pfx depth files e hp]
  | ok items =>
    exfalso
    induction files generalizing items with
    | nil => simp at hf
    | cons g files ih =>
      unfold pageItems at hp
      split at hp
      · simp at hp
      · rename_i r hr
        split at hp
        · simp at hp
        · rename_i its hits
          rcases List.mem_cons.1 hf with rfl | hf
          · rw [h] at hr; simp at hr
          · exact ih hf its hits

theorem pageItems_ok_of_forall (c : container) (pfx : GoString) (depth : Int)
    (files : List fileinfo) (h : ∀ f ∈ files, ∃ r, pageItem c pfx depth f = .ok r) :
    ∃ items, pageItems c pfx depth files = .ok items := by
  induction files with
  | nil => exact ⟨[], rfl⟩
  | cons f files ih =>
    obtain ⟨r, hr⟩ := h f (List.mem_cons_self _ _)
    obtain ⟨items, hitems⟩ := ih (fun g hg => h g (List.mem_cons_of_mem _ hg))
    refine ⟨r.toList ++ items, ?_⟩
    unfold pageItems
    rw [hr, hitems]

/-! ## Properties of `Items` -/

/-- The run of `Items` once `flatdirs` has returned the sequence and the cursor is valid. -/
theorem Items_valid (CursorStart : GoString) (tree : Tree) (c : container)
    (pfx cursor : GoString) (k : Nat) (depth : Int) (files : List fileinfo)
    (hfl : flatdirs tree c.path = .ok files)
    (hcur : validCursor CursorStart files cursor) :
    Items CursorStart tree c pfx cursor k depth =
      match pageItems c pfx depth (specPage (remaining CursorStart files cursor) k) with
      | .error e => .error e
      | .ok items => .ok (items, specCursor (remaining CursorStart files cursor) k) := by
  unfold Items
  simp only [hfl, seek_valid CursorStart cursor files hcur, cutPage_ofNat, filepath.FromSlash]

theorem Items_invalid (CursorStart : GoString) (tree : Tree) (c : container)
    (pfx cursor : GoString) (count depth : Int) (files : List fileinfo)
    (hfl : flatdirs tree c.path = .ok files)
    (hcur : ¬ validCursor CursorStart files cursor) :
    Items CursorStart tree c pfx cursor count depth = .error (.err .ErrBadCursor) := by
  unfold Items
  simp only [hfl, seek_invalid CursorStart cursor files hcur]

theorem Items_ok_valid (CursorStart : GoString) (tree : Tree) (c : container)
    (pfx cursor : GoString) (count depth : Int) (items : List item) (next : GoString)
    (h : Items CursorStart tree c pfx cursor count depth = .ok (items, next)) :
    ∃ files, flatdirs tree c.path = .ok files ∧ validCursor CursorStart files cursor ∧
      0 ≤ count := by
  cases hfl : flatdirs tree c.path with
  | error e => unfold Items at h; simp [hfl] at h
  | ok files =>
    refine ⟨files, rfl, ?_, ?_⟩
    · by_contra hv
      rw [Items_invalid CursorStart tree c pfx cursor count depth files hfl hv] at h
      simp at h
    · by_contra hneg
      push_neg at hneg
      unfold Items at h
      simp only [hfl] at h
      split at h
      · simp at h
      · rw [cutPage_neg _ _ hneg] at h
        simp at h

theorem Items_not_bad_cursor (CursorStart : GoString) (tree : Tree) (c : container)
    (pfx cursor : GoString) (count depth : Int) (files : List fileinfo)
    (hfl : flatdirs tree c.path = .ok files)
    (hcur : validCursor CursorStart files cursor) :
    Items CursorStart tree c pfx cursor count depth ≠ .error (.err .ErrBadCursor) := by
  unfold Items
  simp only [hfl, seek_valid CursorStart cursor files hcur]
  intro h
  split at h
  · rename_i e he
    have := cutPage_error _ _ _ he
    subst this
    simp at h
  · split at h
    · rename_i e he
      have := pageItems_error _ _ _ _ _ he
      subst this
      simp at h
    · simp at h

theorem Items_unfiltered (CursorStart : GoString) (tree : Tree) (c : container)
    (cursor : GoString) (k : Nat) (depth : Int) (files : List fileinfo)
    (hfl : flatdirs tree c.path = .ok files)
    (hcur : validCursor CursorStart files cursor) :
    Items CursorStart tree c [] cursor k depth =
      .ok ((specPage (remaining CursorStart files cursor) k).map (itemOf c),
        specCursor (remaining CursorStart files cursor) k) := by
  rw [Items_valid CursorStart tree c [] cursor k depth files hfl hcur, pageItems_unfiltered]
  intro f hf
  exact flatdirs_not_dir tree c.path files hfl f
    (remaining_subset _ _ _ f (specPage_subset _ _ f hf))

theorem Items_next (CursorStart : GoString) (tree : Tree) (c : container)
    (pfx cursor : GoString) (k : Nat) (depth : Int) (files : List fileinfo)
    (items : List item) (next : GoString)
    (hfl : flatdirs tree c.path = .ok files)
    (hcur : validCursor CursorStart files cursor)
    (h : Items CursorStart tree c pfx cursor k depth = .ok (items, next)) :
    pageItems c pfx depth (specPage (remaining CursorStart files cursor) k) = .ok items ∧
      next = specCursor (remaining CursorStart files cursor) k := by
  rw [Items_valid CursorStart tree c pfx cursor k depth files hfl hcur] at h
  split at h
  · simp at h
  · rename_i its hits
    simp only [Except.ok.injEq, Prod.mk.injEq] at h
    exact ⟨by rw [hits, h.1], h.2.symm⟩

theorem listPages_suffix (CursorStart : GoString) (tree : Tree) (c : container) (k : Nat)
    (depth : Int) (files : List fileinfo)
    (hfl : flatdirs tree c.path = .ok files)
    (hnd : (files.map fileinfo.Name).Nodup)
    (hst : ∀ f ∈ files, f.Name ≠ CursorStart)
    (hk : 1 ≤ k) (fuel : Nat) :
    ∀ (R : List fileinfo) (cursor : GoString), R <:+ files →
      validCursor CursorStart files cursor → remaining CursorStart files cursor = R →
      R.length < fuel →
      ∃ pages, listPages CursorStart tree c [] k depth fuel cursor = some (.ok pages) ∧
        pages.flatten = R.map (itemOf c) := by
  induction fuel with
  | zero => intro R cursor _ _ _ h; omega
  | succ fuel ih =>
    intro R cursor hsuf hcur hrem hlen
    unfold listPages
    rw [Items_unfiltered CursorStart tree c cursor k depth files hfl hcur, hrem]
    simp only
    by_cases hkR : k < R.length
    · obtain ⟨pre, hpre⟩ := hsuf
      have hR : R = R.take k ++ R.get ⟨k, hkR⟩ :: R.drop (k + 1) := by
        conv_lhs => rw [← List.take_append_drop k R]
        rw [List.drop_eq_getElem_cons hkR]
        rfl
      have hmem : R.get ⟨k, hkR⟩ ∈ files := by
        rw [← hpre]
        exact List.mem_append_right _ (List.get_mem _ _ _)
      have hne : specCursor R k ≠ [] := by
        unfold specCursor
        rw [dif_pos hkR]
        exact flatdirs_name_ne_nil tree c.path files hfl _ hmem
      have hcur1 : validCursor CursorStart files (specCursor R k) := by
        right
        refine ⟨R.get ⟨k, hkR⟩, hmem, ?_⟩
        unfold specCursor
        rw [dif_pos hkR]
      have hrem1 : remaining CursorStart files (specCursor R k) = R.drop k := by
        unfold remaining
        have hcs : specCursor R k = (R.get ⟨k, hkR⟩).Name := by
          unfold specCursor
          rw [dif_pos hkR]
        rw [hcs, if_neg (hst _ hmem)]
        have hfiles : files = (pre ++ R.take k) ++ R.get ⟨k, hkR⟩ :: R.drop (k + 1) := by
          rw [List.append_assoc, ← hR, hpre]
        have hnd1 := hnd
        rw [hfiles] at hnd1
        have := dropWhile_name_of_nodup _ _ _ hnd1
        rw [← hfiles] at this
        rw [this, List.drop_eq_getElem_cons hkR]
        rfl
      have hsuf1 : R.drop k <:+ files :=
        (List.drop_suffix k R).trans ⟨pre, hpre⟩
      have hlen1 : (R.drop k).length < fuel := by
        rw [List.length_drop]
        omega
      obtain ⟨pages, hpages, hjoin⟩ := ih (R.drop k) (specCursor R k) hsuf1 hcur1 hrem1 hlen1
      rw [if_neg hne, hpages]
      refine ⟨_, rfl, ?_⟩
      simp only [List.flatten_cons, hjoin, specPage, if_pos hkR]
      rw [← List.map_append, List.take_append_drop]
    · have hnil : specCursor R k = [] := by
        unfold specCursor
        rw [dif_neg hkR]
      rw [if_pos hnil]
      refine ⟨_, rfl, ?_⟩
      simp [specPage, hkR]

/-! ## Further properties of `flatdirs` -/

/-- A walk that returns without error met no error on any call and could name every file
relative to the root. -/
theorem Walk_flatdirsFn_calls (path : GoString) (tree : Tree) (init list : List fileinfo)
    (h : filepath.Walk tree (flatdirsFn path) init = .ok list) :
    ∀ call ∈ tree, call.err = none ∧
      (call.info.isDir = false → ∃ name, filepath.Rel path call.p = .ok name) := by
  induction tree generalizing init with
  | nil => intro call hc; simp at hc
  | cons call rest ih =>
    unfold filepath.Walk at h
    simp only at h
    cases hfn : flatdirsFn path init call with
    | error e => rw [hfn] at h; simp at h
    | ok st =>
      rw [hfn] at h
      simp only at h
      intro x hx
      rcases List.mem_cons.1 hx with rfl | hx
      · unfold flatdirsFn at hfn
        cases herr : x.err with
        | some e => rw [herr] at hfn; simp at hfn
        | none =>
          refine ⟨rfl, fun hd => ?_⟩
          rw [herr] at hfn
          simp only [hd, Bool.false_eq_true, if_false] at hfn
          cases hrel : filepath.Rel path x.p with
          | error e => rw [hrel] at hfn; simp at hfn
          | ok n => exact ⟨n, rfl⟩
      · exact ih st h x hx

theorem Walk_flatdirsFn_total (path : GoString) (tree : Tree) (init : List fileinfo)
    (herr : ∀ call ∈ tree, call.err = none)
    (hrel : ∀ call ∈ tree, call.info.isDir = false →
      ∃ name, filepath.Rel path call.p = .ok name) :
    ∃ list, filepath.Walk tree (flatdirsFn path) init = .ok list := by
  induction tree generalizing init with
  | nil => exact ⟨init, by unfold filepath.Walk; rfl⟩
  | cons call rest ih =>
    have hfn : ∃ st, flatdirsFn path init call = .ok st := by
      unfold flatdirsFn
      rw [herr call (List.mem_cons_self _ _)]
      by_cases hd : call.info.isDir = true
      · exact ⟨init, by simp [hd]⟩
      · obtain ⟨n, hn⟩ := hrel call (List.mem_cons_self _ _) (by simpa using hd)
        exact ⟨init ++ [{ FileInfo := call.info, name := n }], by simp [hd, hn]⟩
    obtain ⟨st, hst⟩ := hfn
    obtain ⟨list, hlist⟩ := ih st (fun x hx => herr x (List.mem_cons_of_mem _ hx))
      (fun x hx => hrel x (List.mem_cons_of_mem _ hx))
    refine ⟨list, ?_⟩
    unfold filepath.Walk
    simp only [hst, hlist]

theorem walkedFile_map (path : GoString) (tree : Tree)
    (hrel : ∀ call ∈ tree, call.info.isDir = false →
      ∃ name, filepath.Rel path call.p = .ok name) :
    (tree.filterMap (walkedFile path)).map (fun f => (f.FileInfo, Except.ok f.Name)) =
      (tree.filter (fun call => !call.info.isDir)).map
        (fun call => (call.info, filepath.Rel path call.p)) := by
  induction tree with
  | nil => rfl
  | cons call rest ih =>
    have ih1 := ih (fun x hx => hrel x (List.mem_cons_of_mem _ hx))
    simp only [fileinfo.Name] at ih1 ⊢
    by_cases hd : call.info.isDir = true
    · simp [List.filterMap_cons, List.filter_cons, walkedFile, hd, ih1]
    · obtain ⟨n, hn⟩ := hrel call (List.mem_cons_self _ _) (by simpa using hd)
      simp [List.filterMap_cons, List.filter_cons, walkedFile, hd, hn, ih1]

/-! ## Further properties of the filter -/

theorem pageItems_length_le (c : container) (pfx : GoString) (depth : Int)
    (files : List fileinfo) (items : List item)
    (h : pageItems c pfx depth files = .ok items) : items.length ≤ files.length := by
  induction files generalizing items with
  | nil =>
    simp [pageItems] at h
    simp [h]
  | cons f files ih =>
    unfold pageItems at h
    split at h
    · simp at h
    · rename_i r hr
      split at h
      · simp at h
      · rename_i its hits
        simp only [Except.ok.injEq] at h
        have := ih its hits
        rw [← h]
        cases r <;> simp <;> omega

theorem specPage_length_le (R : List fileinfo) (k : Nat) : (specPage R k).length ≤ k := by
  unfold specPage
  split
  · simp
  · omega

/-- The depth test lets through at depth `d2` what it lets through at `d1 ≤ d2`. -/
theorem pageItem_mono (c : container) (pfx : GoString) (d1 d2 : Int) (f : fileinfo)
    (r1 r2 : Option item) (h12 : (1 ≤ d1 ∧ d1 ≤ d2) ∨ d2 ≤ 0)
    (h1 : pageItem c pfx d1 f = .ok r1) (h2 : pageItem c pfx d2 f = .ok r2) :
    r1.toList.Sublist r2.toList := by
  cases r1 with
  | none => simp
  | some it =>
    obtain ⟨hit, hd⟩ := pageItem_some c pfx d1 f it h1
    suffices hs : r2 = some it by rw [hs]
    by_cases hp : pfx = []
    · subst hp
      have : pageItem c [] d2 f = .ok (some (itemOf c f)) := by
        unfold pageItem
        simp [hd, itemOf, fullPath]
      rw [this] at h2
      simp only [Except.ok.injEq] at h2
      rw [← h2, hit]
    · by_cases hpre : pfx <+: fullPath c f
      · by_cases hd2 : d2 ≤ 0
        · rw [pageItem_unlimited c pfx d2 f hd hp hd2, if_pos hpre] at h2
          simp only [Except.ok.injEq] at h2
          rw [← h2, hit]
        · have hd2' : 1 ≤ d2 := by omega
          have hle : 1 ≤ d1 ∧ d1 ≤ d2 := by
            rcases h12 with h | h
            · exact h
            · omega
          by_cases heq : fullPath c f = pfx
          · rw [pageItem_exact c pfx d2 f hd hp hd2' heq] at h2
            simp at h2
          · have hlen : pfx.length < (fullPath c f).length := by
              rcases Nat.lt_or_ge pfx.length (fullPath c f).length with h | h
              · exact h
              · exact absurd (hpre.eq_of_length_le h).symm heq
            rw [pageItem_depth c pfx d2 f hd hp hd2' hpre hlen] at h2
            rw [pageItem_depth c pfx d1 f hd hp hle.1 hpre hlen] at h1
            by_cases hc : (strings.Count (remainderAfter (fullPath c f) pfx) separator : Int)
                < d1
            · rw [if_pos (lt_of_lt_of_le hc hle.2)] at h2
              simp only [Except.ok.injEq] at h2
              rw [← h2, hit]
            · rw [if_neg hc] at h1
              simp at h1
      · rw [pageItem_unmatched c pfx d1 f hp hpre] at h1
        simp at h1

theorem pageItems_mono (c : container) (pfx : GoString) (d1 d2 : Int)
    (h12 : (1 ≤ d1 ∧ d1 ≤ d2) ∨ d2 ≤ 0) (files : List fileinfo) (i1 i2 : List item)
    (h1 : pageItems c pfx d1 files = .ok i1) (h2 : pageItems c pfx d2 files = .ok i2) :
    i1.Sublist i2 := by
  induction files generalizing i1 i2 with
  | nil =>
    simp [pageItems] at h1
    simp [h1]
  | cons f files ih =>
    unfold pageItems at h1 h2
    split at h1
    · simp at h1
    · rename_i r1 hr1
      split at h1
      · simp at h1
      · rename_i its1 hits1
        split at h2
        · simp at h2
        · rename_i r2 hr2
          split at h2
          · simp at h2
          · rename_i its2 hits2
            simp only [Except.ok.injEq] at h1 h2
            rw [← h1, ← h2]
            exact (pageItem_mono c pfx d1 d2 f r1 r2 h12 hr1 hr2).append (ih its1 its2 hits1 hits2)

/-- With depth 0 (or less) the filter never panics. -/
theorem pageItems_unlimited_total (c : container) (pfx : GoString) (depth : Int)
    (h0 : depth ≤ 0) (files : List fileinfo) :
    ∃ items, pageItems c pfx depth files = .ok items := by
  apply pageItems_ok_of_forall
  intro f _
  by_cases hd : f.IsDir = true
  · exact ⟨_, pageItem_dir c pfx depth f hd⟩
  · by_cases hp : pfx = []
    · subst hp
      refine ⟨some (itemOf c f), ?_⟩
      unfold pageItem
      simp [hd, itemOf, fullPath]
    · exact ⟨_, pageItem_unlimited c pfx depth f (by simpa using hd) hp h0⟩

theorem pageItem_total_of (c : container) (pfx : GoString) (depth : Int) (f : fileinfo)
    (h : pfx = [] ∨ depth ≤ 0 ∨ fullPath c f ≠ pfx) : ∃ r, pageItem c pfx depth f = .ok r := by
  by_cases hd : f.IsDir = true
  · exact ⟨_, pageItem_dir c pfx depth f hd⟩
  · by_cases hp : pfx = []
    · subst hp
      refine ⟨some (itemOf c f), ?_⟩
      unfold pageItem
      simp [hd, itemOf, fullPath]
    · by_cases h0 : depth ≤ 0
      · exact ⟨_, pageItem_unlimited c pfx depth f (by simpa using hd) hp h0⟩
      · rcases h with h | h | h
        · exact absurd h hp
        · exact absurd h h0
        · exact pageItem_ok_of_ne c pfx depth f hp (by omega) h

/-! ## Properties of the pagination loop -/

/-- The next cursor of a page cut inside a sequence of distinct names, none of them the start
sentinel, leaves the entries after the page. -/
theorem remaining_next (CursorStart : GoString) (files R : List fileinfo) (k : Nat)
    (hnd : (files.map fileinfo.Name).Nodup)
    (hst : ∀ f ∈ files, f.Name ≠ CursorStart)
    (hsuf : R <:+ files) (hkR : k < R.length) :
    (∃ f ∈ files, f.Name = specCursor R k) ∧
      remaining CursorStart files (specCursor R k) = R.drop k := by
  obtain ⟨pre, hpre⟩ := hsuf
  have hR : R = R.take k ++ R.get ⟨k, hkR⟩ :: R.drop (k + 1) := by
    conv_lhs => rw [← List.take_append_drop k R]
    rw [List.drop_eq_getElem_cons hkR]
    rfl
  have hmem : R.get ⟨k, hkR⟩ ∈ files := by
    rw [← hpre]
    exact List.mem_append_right _ (List.get_mem _ _ _)
  have hcs : specCursor R k = (R.get ⟨k, hkR⟩).Name := by
    unfold specCursor
    rw [dif_pos hkR]
  refine ⟨⟨_, hmem, hcs.symm⟩, ?_⟩
  unfold remaining
  rw [hcs, if_neg (hst _ hmem)]
  have hfiles : files = (pre ++ R.take k) ++ R.get ⟨k, hkR⟩ :: R.drop (k + 1) := by
    rw [List.append_assoc, ← hR, hpre]
  have hnd1 := hnd
  rw [hfiles] at hnd1
  have := dropWhile_name_of_nodup _ _ _ hnd1
  rw [← hfiles] at this
  rw [this, List.drop_eq_getElem_cons hkR]
  rfl

theorem remaining_suffix (CursorStart cursor : GoString) (files : List fileinfo) :
    remaining CursorStart files cursor <:+ files := by
  unfold remaining
  split
  · exact List.suffix_refl _
  · exact List.dropWhile_suffix _

theorem specCursor_ne_nil_iff (R : List fileinfo) (k : Nat) (hne : ∀ f ∈ R, f.Name ≠ []) :
    specCursor R k ≠ [] ↔ k < R.length := by
  unfold specCursor
  constructor
  · intro h
    by_contra hk
    rw [dif_neg hk] at h
    exact h rfl
  · intro hk
    rw [dif_pos hk]
    exact hne _ (List.get_mem _ _ _)

theorem calls_step (L k : Nat) (hk : 1 ≤ k) (hL : k < L) :
    max 1 ((L + k - 1) / k) = max 1 ((L - k + k - 1) / k) + 1 := by
  have h1 : L + k - 1 = (L - 1) + k := by omega
  have h2 : L - k + k - 1 = L - 1 := by omega
  rw [h1, h2, Nat.add_div_right _ (by omega : 0 < k)]
  have h3 : 1 ≤ (L - 1) / k := by
    rw [Nat.le_div_iff_mul_le (by omega : 0 < k)]
    omega
  omega

theorem calls_last (L k : Nat) (hk : 1 ≤ k) (hL : ¬ k < L) :
    max 1 ((L + k - 1) / k) = 1 := by
  have : (L + k - 1) / k ≤ 1 := by
    have h2 : (L + k - 1) / k < 2 := by
      rw [Nat.div_lt_iff_lt_mul (by omega : 0 < k)]
      omega
    omega
  omega

theorem listPages_calls (CursorStart : GoString) (tree : Tree) (c : container)
    (pfx : GoString) (k : Nat) (depth : Int) (files : List fileinfo)
    (hfl : flatdirs tree c.path = .ok files)
    (hnd : (files.map fileinfo.Name).Nodup)
    (hst : ∀ f ∈ files, f.Name ≠ CursorStart)
    (hk : 1 ≤ k)
    (hsafe : ∀ f ∈ files, ∃ r, pageItem c pfx depth f = .ok r) (fuel : Nat) :
    ∀ (R : List fileinfo) (cursor : GoString), R <:+ files →
      validCursor CursorStart files cursor → remaining CursorStart files cursor = R →
      max 1 ((R.length + k - 1) / k) ≤ fuel →
      ∃ pages, listPages CursorStart tree c pfx k depth fuel cursor = some (.ok pages) ∧
        pages.length = max 1 ((R.length + k - 1) / k) := by
  induction fuel with
  | zero => intro R cursor _ _ _ h; omega
  | succ fuel ih =>
    intro R cursor hsuf hcur hrem hlen
    obtain ⟨items, hitems⟩ := pageItems_ok_of_forall c pfx depth (specPage R k)
      (fun f hf => hsafe f (hsuf.subset (specPage_subset _ _ f hf)))
    unfold listPages
    rw [Items_valid CursorStart tree c pfx cursor k depth files hfl hcur, hrem, hitems]
    simp only
    have hnames : ∀ f ∈ R, f.Name ≠ [] :=
      fun f hf => flatdirs_name_ne_nil tree c.path files hfl f (hsuf.subset hf)
    by_cases hkR : k < R.length
    · have hne : specCursor R k ≠ [] := (specCursor_ne_nil_iff R k hnames).2 hkR
      obtain ⟨hv, hrem1⟩ := remaining_next CursorStart files R k hnd hst hsuf hkR
      have hstep := calls_step R.length k hk hkR
      have hlen1 : max 1 (((R.drop k).length + k - 1) / k) ≤ fuel := by
        rw [List.length_drop]
        omega
      obtain ⟨pages, hpages, hcount⟩ := ih (R.drop k) (specCursor R k)
        ((List.drop_suffix k R).trans hsuf) (Or.inr hv) hrem1 hlen1
      rw [if_neg hne, hpages]
      refine ⟨_, rfl, ?_⟩
      rw [List.length_cons, hcount, List.length_drop, hstep]
    · have hnil : specCursor R k = [] := by
        unfold specCursor
        rw [dif_neg hkR]
      rw [if_pos hnil]
      exact ⟨_, rfl, by rw [calls_last R.length k hk hkR]; rfl⟩


theorem dropWhile_head_name (cursor : GoString) (files : List fileinfo) (f : fileinfo)
    (r : List fileinfo) (h : files.dropWhile (fun g => g.Name != cursor) = f :: r) :
    f.Name = cursor := by
  induction files with
  | nil => simp at h
  | cons g files ih =>
    rw [List.dropWhile_cons] at h
    by_cases hg : g.Name = cursor
    · simp only [hg, bne_self_eq_false, Bool.false_eq_true, if_false, List.cons.injEq] at h
      rw [← h.1, hg]
    · simp only [bne_iff_ne, ne_eq, hg, not_false_eq_true, if_true] at h
      exact ih h

theorem dropWhile_ne_nil_of_mem (cursor : GoString) (files : List fileinfo) (f : fileinfo)
    (hf : f ∈ files) (hn : f.Name = cursor) :
    files.dropWhile (fun g => g.Name != cursor) ≠ [] := by
  induction files with
  | nil => simp at hf
  | cons g files ih =>
    rw [List.dropWhile_cons]
    by_cases hg : g.Name = cursor
    · simp [hg]
    · simp only [bne_iff_ne, ne_eq, hg, not_false_eq_true, if_true]
      rcases List.mem_cons.1 hf with rfl | hf
      · exact absurd hn hg
      · exact ih hf

/-- A call with page size 0 on a non-empty remaining sequence. -/
theorem Items_zero (CursorStart : GoString) (tree : Tree) (c : container)
    (pfx cursor : GoString) (depth : Int) (files : List fileinfo) (first : fileinfo)
    (rest : List fileinfo)
    (hfl : flatdirs tree c.path = .ok files)
    (hcur : validCursor CursorStart files cursor)
    (hrem : remaining CursorStart files cursor = first :: rest) :
    Items CursorStart tree c pfx cursor (0 : Nat) depth = .ok ([], first.Name) := by
  rw [Items_valid CursorStart tree c pfx cursor 0 depth files hfl hcur, hrem]
  simp [specPage, specCursor, pageItems]

/-- The cursor a call with page size 0 returns names the head of its own remaining
sequence. -/
theorem remaining_first (CursorStart : GoString) (files : List fileinfo) (cursor : GoString)
    (first : fileinfo) (rest : List fileinfo)
    (hrem : remaining CursorStart files cursor = first :: rest) :
    validCursor CursorStart files first.Name ∧
      ∃ first2 rest2, remaining CursorStart files first.Name = first2 :: rest2 ∧
        first2.Name = first.Name := by
  have hmem : first ∈ files :=
    remaining_subset CursorStart cursor files first (by rw [hrem]; simp)
  refine ⟨Or.inr ⟨first, hmem, rfl⟩, ?_⟩
  by_cases hs : first.Name = CursorStart
  · have hc : cursor = CursorStart := by
      by_contra hc
      unfold remaining at hrem
      rw [if_neg hc] at hrem
      exact hc ((dropWhile_head_name cursor files first rest hrem).symm.trans hs)
    refine ⟨first, rest, ?_, rfl⟩
    rw [hc] at hrem
    rw [hs]
    exact hrem
  · unfold remaining
    rw [if_neg hs]
    cases hd : files.dropWhile (fun g => g.Name != first.Name) with
    | nil => exact absurd hd (dropWhile_ne_nil_of_mem _ _ first hmem rfl)
    | cons f2 r2 => exact ⟨f2, r2, rfl, dropWhile_head_name _ _ f2 r2 hd⟩

theorem listPages_zero (CursorStart : GoString) (tree : Tree) (c : container)
    (pfx : GoString) (depth : Int) (files : List fileinfo)
    (hfl : flatdirs tree c.path = .ok files) (fuel : Nat) :
    ∀ (cursor : GoString) (first : fileinfo) (rest : List fileinfo),
      validCursor CursorStart files cursor →
      remaining CursorStart files cursor = first :: rest →
      listPages CursorStart tree c pfx (0 : Nat) depth fuel cursor = none := by
  induction fuel with
  | zero => intro cursor first rest _ _; rfl
  | succ fuel ih =>
    intro cursor first rest hcur hrem
    obtain ⟨hv, first2, rest2, hrem2, _⟩ := remaining_first CursorStart files cursor first rest hrem
    have hne : first.Name ≠ [] :=
      flatdirs_name_ne_nil tree c.path files hfl first
        (remaining_subset CursorStart cursor files first (by rw [hrem]; simp))
    unfold listPages
    rw [Items_zero CursorStart tree c pfx cursor depth files first rest hfl hcur hrem]
    simp only [if_neg hne, ih first.Name first2 rest2 hv hrem2]

/-! ## Properties of rooted paths and of `Item` -/

theorem cleanStep_rooted_no_dotdot (out : List GoString) (e : GoString)
    (h : ∀ x ∈ out, x ≠ ['.', '.']) : ∀ x ∈ filepath.cleanStep true out e, x ≠ ['.', '.'] := by
  unfold filepath.cleanStep
  split
  · exact h
  · split
    · cases out with
      | nil => simp
      | cons top rest =>
        simp only
        split
        · rename_i htop
          exact absurd htop (h top (List.mem_cons_self _ _))
        · intro x hx
          exact h x (List.mem_cons_of_mem _ hx)
    · rename_i h2
      intro x hx
      rcases List.mem_cons.1 hx with rfl | hx
      · exact h2
      · exact h x hx

theorem foldl_cleanStep_rooted_no_dotdot (es out : List GoString)
    (h : ∀ x ∈ out, x ≠ ['.', '.']) :
    ∀ x ∈ es.foldl (filepath.cleanStep true) out, x ≠ ['.', '.'] := by
  induction es generalizing out with
  | nil => simpa using h
  | cons e es ih =>
    simp only [List.foldl_cons]
    exact ih _ (cleanStep_rooted_no_dotdot out e h)

/-- A cleaned rooted path is rooted and has no `..` element. -/
theorem cleanParts_rooted (s : GoString) :
    (filepath.cleanParts (filepath.Separator :: s)).1 = true ∧
      ∀ x ∈ (filepath.cleanParts (filepath.Separator :: s)).2, x ≠ ['.', '.'] := by
  unfold filepath.cleanParts
  simp only [decide_True, List.mem_reverse, true_and]
  exact foldl_cleanStep_rooted_no_dotdot _ [] (by simp)

theorem dropCommon_fst_subset (base targ : List GoString) :
    ∀ x ∈ (filepath.dropCommon base targ).1, x ∈ base := by
  induction base generalizing targ with
  | nil => cases targ <;> simp [filepath.dropCommon]
  | cons b base ih =>
    cases targ with
    | nil => simp [filepath.dropCommon]
    | cons t targ =>
      unfold filepath.dropCommon
      split
      · intro x hx
        exact List.mem_cons_of_mem _ (ih targ x hx)
      · intro x hx; exact hx

/-- Two rooted paths can always be related. -/
theorem Rel_rooted (b t : GoString) :
    ∃ rel, filepath.Rel (filepath.Separator :: b) (filepath.Separator :: t) = .ok rel := by
  obtain ⟨hb1, hb2⟩ := cleanParts_rooted b
  obtain ⟨ht1, _⟩ := cleanParts_rooted t
  unfold filepath.Rel
  simp only
  split
  · exact ⟨_, rfl⟩
  · have hroot : ¬ ((filepath.cleanParts (filepath.Separator :: b)).1 ≠
        (filepath.cleanParts (filepath.Separator :: t)).1) := by
      rw [hb1, ht1]
      exact fun h => h rfl
    rw [if_neg hroot]
    split
    · exact ⟨_, rfl⟩
    · rename_i x bs tl hdc
      have hx : x ∈ (filepath.cleanParts (filepath.Separator :: b)).2 := by
        apply dropCommon_fst_subset _ (filepath.cleanParts (filepath.Separator :: t)).2
        rw [hdc]
        exact List.mem_cons_self _ _
      rw [if_neg (hb2 x hx)]
      exact ⟨_, rfl⟩

theorem IsAbs_iff (path : GoString) :
    filepath.IsAbs path = true ↔ ∃ s, path = filepath.Separator :: s := by
  unfold filepath.IsAbs strings.HasPrefix
  cases path with
  | nil => simp
  | cons b s =>
    constructor
    · intro h
      have hb : filepath.Separator = b := by simpa [List.isPrefixOf] using h
      exact ⟨s, by rw [hb]⟩
    · rintro ⟨t, ht⟩
      cases ht
      simp [List.isPrefixOf]

theorem Clean_rooted (s : GoString) :
    ∃ t, filepath.Clean (filepath.Separator :: s) = filepath.Separator :: t := by
  unfold filepath.Clean filepath.render
  simp only [(cleanParts_rooted s).1, if_true]
  exact ⟨_, rfl⟩

theorem Join_rooted (s name : GoString) :
    ∃ t, filepath.Join [filepath.Separator :: s, name] = filepath.Separator :: t := by
  unfold filepath.Join
  simp only [List.dropWhile_cons, List.isEmpty_cons, Bool.false_eq_true, if_false,
    List.intercalate, List.intersperse, List.flatten_cons, List.flatten_nil, List.cons_append]
  exact Clean_rooted _

/-- The path of an id under an absolute root is absolute. -/
theorem resolvedPath_rooted (c : container) (id : GoString)
    (habs : filepath.IsAbs c.path = true) :
    ∃ t, resolvedPath c id = filepath.Separator :: t := by
  unfold resolvedPath
  split
  · rename_i h
    exact (IsAbs_iff id).1 h
  · obtain ⟨s, hs⟩ := (IsAbs_iff c.path).1 habs
    rw [hs]
    exact Join_rooted s id

theorem Item_eq {Reader : Type} (sys : System Reader) (c : container) (id : GoString) :
    Item sys c id =
      if os.IsNotExist (sys.Stat (resolvedPath c id)).2 then .error (.err .ErrNotFound)
      else
        match (sys.Stat (resolvedPath c id)).1 with
        | none => .error .nilDereference
        | some info =>
          if info.isDir then .error (.err (.errorsNew "unexpected directory".toList))
          else
            match filepath.Rel c.path (resolvedPath c id) with
            | .error err => .error (.err err)
            | .ok _ => .ok { path := resolvedPath c id,
                             contPrefixLen := (c.path.length : Int) + 1 } := by
  have hp : (if !filepath.IsAbs id then filepath.Join [c.path, filepath.FromSlash id] else id) =
      resolvedPath c id := by
    unfold resolvedPath filepath.FromSlash
    cases filepath.IsAbs id <;> simp
  unfold Item
  simp only [hp]

/-! ## The claims -/

/-- Claim C1, pagination completeness. For a flattened sequence whose names are
pairwise distinct and differ from the start sentinel, and a page size `k ≥ 1`,
the loop that calls `Items` with the empty prefix from the start sentinel and
feeds each returned cursor into the next call ends (any number of calls above
the number of entries is enough) and the concatenation of its pages is the
whole `flatdirs` sequence, entry by entry and in the same order. -/
theorem pagination_complete (CursorStart : GoString) (tree : Tree) (c : container) (k : Nat)
    (depth : Int) (files : List fileinfo) (fuel : Nat)
    (hfl : flatdirs tree c.path = .ok files)
    (hnd : (files.map fileinfo.Name).Nodup)
    (hst : ∀ f ∈ files, f.Name ≠ CursorStart)
    (hk : 1 ≤ k) (hfuel : files.length < fuel) :
    ∃ pages, listPages CursorStart tree c [] k depth fuel CursorStart = some (.ok pages) ∧
      pages.flatten = files.map (itemOf c) :=
  listPages_suffix CursorStart tree c k depth files hfl hnd hst hk fuel files CursorStart
    (List.suffix_refl _) (Or.inl rfl) (by simp [remaining]) hfuel

/-- Claim C1 on the root `/r` with the files `a/x.txt` and `a/b/c.txt`, page
size 1. -/
theorem pagination_complete_witness :
    ∃ pages, listPages startCursor treeAbs contAbs [] 1 0 3 startCursor = some (.ok pages) ∧
      pages.flatten = [entryX, entryC].map (itemOf contAbs) :=
  pagination_complete startCursor treeAbs contAbs 1 0 [entryX, entryC] 3 (by rfl) (by decide)
    (by decide) (by decide) (by decide)

/-- Claim C2, bad cursor. Once `flatdirs` has returned the sequence, a cursor
other than the start sentinel makes `Items` fail with `ErrBadCursor` (the call
then returns no items and no cursor) exactly when no entry of the sequence is
named by the cursor; with the start sentinel `Items` never fails with
`ErrBadCursor`. -/
theorem bad_cursor_iff_foreign (CursorStart : GoString) (tree : Tree) (c : container)
    (pfx cursor : GoString) (count depth : Int) (files : List fileinfo)
    (hfl : flatdirs tree c.path = .ok files) :
    (cursor ≠ CursorStart →
      (Items CursorStart tree c pfx cursor count depth = .error (.err .ErrBadCursor) ↔
        ∀ f ∈ files, f.Name ≠ cursor)) ∧
    Items CursorStart tree c pfx CursorStart count depth ≠ .error (.err .ErrBadCursor) := by
  constructor
  · intro hne
    constructor
    · intro hbad f hf hname
      exact Items_not_bad_cursor CursorStart tree c pfx cursor count depth files hfl
        (Or.inr ⟨f, hf, hname⟩) hbad
    · intro hall
      apply Items_invalid CursorStart tree c pfx cursor count depth files hfl
      rintro (h | ⟨f, hf, hname⟩)
      · exact hne h
      · exact hall f hf hname
  · exact Items_not_bad_cursor CursorStart tree c pfx CursorStart count depth files hfl
      (Or.inl rfl)

/-- Claim C2 on the root `/r` with the cursor `zzz`, which names no entry. -/
theorem bad_cursor_iff_foreign_witness :
    ("zzz".toList ≠ startCursor →
      (Items startCursor treeAbs contAbs [] "zzz".toList 1 0 = .error (.err .ErrBadCursor) ↔
        ∀ f ∈ [entryX, entryC], f.Name ≠ "zzz".toList)) ∧
    Items startCursor treeAbs contAbs [] startCursor 1 0 ≠ .error (.err .ErrBadCursor) :=
  bad_cursor_iff_foreign startCursor treeAbs contAbs [] "zzz".toList 1 0 [entryX, entryC]
    (by rfl)

/-- Claim C3, page and next cursor. For a page size `k ≥ 0` and a valid cursor,
with `R` the remaining sequence: whatever the filter, a call that returns
gives the cursor `specCursor R k` (the name of `R[k]` when `R` has more than
`k` entries, else `""`); and with the empty prefix the call returns one item
per entry of the unfiltered page `specPage R k` (the first `k` entries of `R`
when `R` has more than `k` entries, else all of `R`), in order. -/
theorem page_and_next_cursor (CursorStart : GoString) (tree : Tree) (c : container)
    (cursor : GoString) (k : Nat) (files : List fileinfo)
    (hfl : flatdirs tree c.path = .ok files)
    (hcur : validCursor CursorStart files cursor) :
    (∀ pfx depth items next,
      Items CursorStart tree c pfx cursor k depth = .ok (items, next) →
        next = specCursor (remaining CursorStart files cursor) k) ∧
    (∀ depth, Items CursorStart tree c [] cursor k depth =
      .ok ((specPage (remaining CursorStart files cursor) k).map (itemOf c),
        specCursor (remaining CursorStart files cursor) k)) := by
  constructor
  · intro pfx depth items next h
    exact (Items_next _ _ _ _ _ _ _ _ _ _ hfl hcur h).2
  · intro depth
    exact Items_unfiltered CursorStart tree c cursor k depth files hfl hcur

/-- Claim C3 on the root `/r`, positioned on `a/b/c.txt`, page size 1: the page
is that entry and the sequence is exhausted. -/
theorem page_and_next_cursor_witness :
    Items startCursor treeAbs contAbs [] "a/b/c.txt".toList 1 0 =
      .ok ([itemOf contAbs entryC], []) :=
  (page_and_next_cursor startCursor treeAbs contAbs "a/b/c.txt".toList 1 [entryX, entryC]
    (by rfl) (Or.inr ⟨entryC, by decide, by rfl⟩)).2 0

/-- Claim C4, depth monotonicity. In the sequence `flatdirs` returns, the number
of separators in the name never decreases from one position to a later one. -/
theorem flatdirs_depth_monotone (tree : Tree) (path : GoString) (files : List fileinfo)
    (h : flatdirs tree path = .ok files) (i j : Nat) (hij : i < j) (hj : j < files.length) :
    strings.Count (files.get ⟨i, hij.trans hj⟩).Name separator ≤
      strings.Count (files.get ⟨j, hj⟩).Name separator :=
  List.pairwise_iff_get.1 (flatdirs_sorted tree path files h) ⟨i, hij.trans hj⟩ ⟨j, hj⟩ hij

/-- Claim C4 on the root `/r`: `a/x.txt` comes before `a/b/c.txt`. -/
theorem flatdirs_depth_monotone_witness :
    strings.Count ([entryX, entryC].get ⟨0, by decide⟩).Name separator ≤
      strings.Count ([entryX, entryC].get ⟨1, by decide⟩).Name separator :=
  flatdirs_depth_monotone treeAbs contAbs.path [entryX, entryC] (by rfl) 0 1 (by decide)
    (by decide)

/-- Claim C5 as stated fails: the container rooted at `/r` holds exactly
`a/b/c.txt` and `a/x.txt`, and with the prefix `a` the call returns no item at
depth 1, at depth 2 and at depth 0, because the prefix is compared with the
full path `/r/a/...`. -/
theorem depth_example_relative_prefix_fails :
    flatdirs treeAbs contAbs.path = .ok [entryX, entryC] ∧
    Items startCursor treeAbs contAbs "a".toList startCursor 2 1 = .ok ([], []) ∧
    Items startCursor treeAbs contAbs "a".toList startCursor 2 2 = .ok ([], []) ∧
    Items startCursor treeAbs contAbs "a".toList startCursor 2 0 = .ok ([], []) ∧
    Items startCursor treeAbs contAbs "a".toList startCursor 2 2 ≠
      .ok ([itemOf contAbs entryX, itemOf contAbs entryC], []) :=
  ⟨by rfl, by rfl, by rfl, by rfl, by
    intro h
    have h0 : Items startCursor treeAbs contAbs "a".toList startCursor 2 2 = .ok ([], []) := by
      rfl
    rw [h0] at h
    cases h⟩

/-- Claim C5, amended. The prefix is compared with the full path, so the
example holds with the prefix that names `a` under the container root
(`filepath.Join(root, "a")`, which is `a` itself for the root `.`): for a
container whose tree holds exactly the files `a/b/c.txt` and `a/x.txt`, a call
from the start sentinel with a page size of at least 2 returns only the item of
`a/x.txt` at depth 1, both items at depth 2, and both items at depth 0. -/
theorem depth_example_joined (CursorStart : GoString) (tree : Tree) (c : container)
    (files : List fileinfo) (k : Nat)
    (hfl : flatdirs tree c.path = .ok files)
    (hnames : (files.map fileinfo.Name).Perm ["a/b/c.txt".toList, "a/x.txt".toList])
    (hk : 2 ≤ k) :
    ∃ fx fc, files = [fx, fc] ∧ fx.Name = "a/x.txt".toList ∧ fc.Name = "a/b/c.txt".toList ∧
      Items CursorStart tree c (filepath.Join [c.path, "a".toList]) CursorStart k 1 =
        .ok ([itemOf c fx], []) ∧
      Items CursorStart tree c (filepath.Join [c.path, "a".toList]) CursorStart k 2 =
        .ok ([itemOf c fx, itemOf c fc], []) ∧
      Items CursorStart tree c (filepath.Join [c.path, "a".toList]) CursorStart k 0 =
        .ok ([itemOf c fx, itemOf c fc], []) := by
  have hlen : files.length = 2 := by simpa using hnames.length_eq
  obtain ⟨fx, fc, rfl⟩ : ∃ fx fc, files = [fx, fc] := by
    match files, hlen with
    | [a, b], _ => exact ⟨a, b, rfl⟩
  have hsorted := flatdirs_sorted tree c.path _ hfl
  simp only [List.pairwise_cons, List.mem_singleton, forall_eq, List.not_mem_nil,
    IsEmpty.forall_iff, implies_true, List.Pairwise.nil, and_true] at hsorted
  have hx : fx.Name = "a/x.txt".toList ∧ fc.Name = "a/b/c.txt".toList := by
    simp only [List.map_cons, List.map_nil] at hnames
    have h1 : fx.Name ∈ ["a/b/c.txt".toList, "a/x.txt".toList] := hnames.subset (by simp)
    have h2 : "a/x.txt".toList ∈ [fx.Name, fc.Name] := hnames.symm.subset (by simp)
    have h3 : "a/b/c.txt".toList ∈ [fx.Name, fc.Name] := hnames.symm.subset (by simp)
    simp only [List.mem_cons, List.mem_singleton, List.not_mem_nil, or_false] at h1 h2 h3
    rcases h1 with h1 | h1
    · exfalso
      rcases h2 with h2 | h2
      · rw [h1] at h2
        exact absurd h2 (by decide)
      · have e1 : depthOf fx = 2 := by
          unfold depthOf; rw [h1]; rfl
        have e2 : depthOf fc = 1 := by
          unfold depthOf; rw [← h2]; rfl
        omega
    · refine ⟨h1, ?_⟩
      rcases h3 with h3 | h3
      · rw [h1] at h3
        exact absurd h3 (by decide)
      · exact h3.symm
  refine ⟨fx, fc, rfl, hx.1, hx.2, ?_⟩
  have hp : filepath.Join [c.path, "a".toList] ≠ [] := Join_pair_ne_nil _ _ (by decide)
  have pa := cleanParts_pair_ne_nil c.path "a".toList (by decide) (by rfl) (by decide)
    (by decide)
  have hjx := Join_child c.path "a".toList "x.txt".toList (by decide) pa (by rfl) (by decide)
    (by decide) (by decide)
  have hjb := Join_child c.path "a".toList "b".toList (by decide) pa (by rfl) (by decide)
    (by decide) (by decide)
  have hjc := Join_child c.path ("a".toList ++ filepath.Separator :: "b".toList) "c.txt".toList
    (by simp) hjb.2 (by rfl) (by decide) (by decide) (by decide)
  have hpx : fullPath c fx =
      filepath.Join [c.path, "a".toList] ++ filepath.Separator :: "x.txt".toList := by
    unfold fullPath
    rw [hx.1]
    exact hjx.1
  have hpc : fullPath c fc =
      filepath.Join [c.path, "a".toList] ++ filepath.Separator :: "b/c.txt".toList := by
    unfold fullPath
    rw [hx.2]
    have := hjc.1
    rw [hjb.1] at this
    simpa using this
  have hdx := flatdirs_not_dir tree c.path _ hfl fx (by simp)
  have hdc := flatdirs_not_dir tree c.path _ hfl fc (by simp)
  have hprex : filepath.Join [c.path, "a".toList] <+: fullPath c fx := by
    rw [hpx]; exact List.prefix_append _ _
  have hprec : filepath.Join [c.path, "a".toList] <+: fullPath c fc := by
    rw [hpc]; exact List.prefix_append _ _
  have hlx : (filepath.Join [c.path, "a".toList]).length < (fullPath c fx).length := by
    rw [hpx]; simp
  have hlc : (filepath.Join [c.path, "a".toList]).length < (fullPath c fc).length := by
    rw [hpc]; simp
  have hcx : strings.Count (remainderAfter (fullPath c fx) (filepath.Join [c.path, "a".toList]))
      separator = 0 := by
    rw [hpx, remainderAfter_append]; rfl
  have hcc : strings.Count (remainderAfter (fullPath c fc) (filepath.Join [c.path, "a".toList]))
      separator = 1 := by
    rw [hpc, remainderAfter_append]; rfl
  have hcur : validCursor CursorStart [fx, fc] CursorStart := Or.inl rfl
  have hpage : specPage (remaining CursorStart [fx, fc] CursorStart) k = [fx, fc] := by
    unfold specPage remaining
    simp
    omega
  have hnext : specCursor (remaining CursorStart [fx, fc] CursorStart) k = [] := by
    unfold specCursor remaining
    simp
    omega
  refine ⟨?_, ?_, ?_⟩
  · rw [Items_valid CursorStart tree c _ CursorStart k 1 _ hfl hcur, hpage, hnext]
    simp only [pageItems, pageItem_depth c _ 1 fx hdx hp le_rfl hprex hlx,
      pageItem_depth c _ 1 fc hdc hp le_rfl hprec hlc, hcx, hcc]
    simp
  · rw [Items_valid CursorStart tree c _ CursorStart k 2 _ hfl hcur, hpage, hnext]
    simp only [pageItems, pageItem_depth c _ 2 fx hdx hp (by decide) hprex hlx,
      pageItem_depth c _ 2 fc hdc hp (by decide) hprec hlc, hcx, hcc]
    simp
  · rw [Items_valid CursorStart tree c _ CursorStart k 0 _ hfl hcur, hpage, hnext]
    simp only [pageItems, pageItem_unlimited c _ 0 fx hdx hp le_rfl,
      pageItem_unlimited c _ 0 fc hdc hp le_rfl, hprex, hprec]
    simp


/-- Claim C5, amended, on the root `.`, where the joined prefix is `a`. -/
theorem depth_example_joined_witness :
    filepath.Join [contRel.path, "a".toList] = "a".toList ∧
    ∃ fx fc, [entryX, entryC] = [fx, fc] ∧ fx.Name = "a/x.txt".toList ∧
      fc.Name = "a/b/c.txt".toList ∧
      Items startCursor treeRel contRel (filepath.Join [contRel.path, "a".toList])
        startCursor 2 1 = .ok ([itemOf contRel fx], []) ∧
      Items startCursor treeRel contRel (filepath.Join [contRel.path, "a".toList])
        startCursor 2 2 = .ok ([itemOf contRel fx, itemOf contRel fc], []) ∧
      Items startCursor treeRel contRel (filepath.Join [contRel.path, "a".toList])
        startCursor 2 0 = .ok ([itemOf contRel fx, itemOf contRel fc], []) :=
  ⟨by rfl, depth_example_joined startCursor treeRel contRel [entryX, entryC] 2 (by rfl)
    (by decide) (by decide)⟩

/-- Claim C7, what the code does instead: when an entry of the page has the
non-empty prefix as its whole full path and the depth is at least 1, the
remainder `p` is empty, `p[0]` is out of range and `Items` stops with a
run-time panic; nothing is returned. -/
theorem exact_prefix_panics (CursorStart : GoString) (tree : Tree) (c : container)
    (pfx cursor : GoString) (k : Nat) (depth : Int) (files : List fileinfo) (f : fileinfo)
    (hfl : flatdirs tree c.path = .ok files)
    (hcur : validCursor CursorStart files cursor)
    (hf : f ∈ specPage (remaining CursorStart files cursor) k)
    (hp : pfx ≠ []) (hd : 1 ≤ depth) (heq : fullPath c f = pfx) :
    Items CursorStart tree c pfx cursor k depth = .error .indexOutOfRange := by
  rw [Items_valid CursorStart tree c pfx cursor k depth files hfl hcur,
    pageItems_exact c pfx depth _ f hf
      (pageItem_exact c pfx depth f
        (flatdirs_not_dir tree c.path files hfl f (page_subset_files _ _ _ _ f hf)) hp hd heq)]

/-- Claim C7 on the root `/r` holding `ab` and `abc/f.txt`, with the prefix
`/r/ab` (the full path of `ab`) and depth 1: the call panics. -/
theorem exact_prefix_panics_witness :
    Items startCursor treeAb contAbs "/r/ab".toList startCursor 2 1 =
      .error .indexOutOfRange :=
  exact_prefix_panics startCursor treeAb contAbs "/r/ab".toList startCursor 2 1
    [entryAb, entryF] entryAb (by rfl) (Or.inl rfl) (by decide) (by decide) (by decide) (by rfl)

/-- Claim C8, empty prefix. With the prefix `""` and a page size `k ≥ 0` the
result of `Items` is the same for every depth (it is the result at depth 0),
and on a valid cursor the call returns exactly one item per entry of the
unfiltered page, in page order. -/
theorem empty_prefix_no_depth_filter (CursorStart : GoString) (tree : Tree) (c : container)
    (cursor : GoString) (k : Nat) (depth : Int) (files : List fileinfo)
    (hfl : flatdirs tree c.path = .ok files) :
    Items CursorStart tree c [] cursor k depth = Items CursorStart tree c [] cursor k 0 ∧
    (validCursor CursorStart files cursor →
      ∃ next, Items CursorStart tree c [] cursor k depth =
        .ok ((specPage (remaining CursorStart files cursor) k).map (itemOf c), next)) := by
  by_cases hcur : validCursor CursorStart files cursor
  · rw [Items_unfiltered _ _ _ _ _ depth _ hfl hcur, Items_unfiltered _ _ _ _ _ 0 _ hfl hcur]
    exact ⟨rfl, fun _ => ⟨_, rfl⟩⟩
  · rw [Items_invalid _ _ _ _ _ _ depth _ hfl hcur, Items_invalid _ _ _ _ _ _ 0 _ hfl hcur]
    exact ⟨rfl, fun h => absurd h hcur⟩

/-- Claim C8 on the root `/r` with depth 1, which would drop `a/b/c.txt` under
the prefix `/r/a`. -/
theorem empty_prefix_no_depth_filter_witness :
    Items startCursor treeAbs contAbs [] startCursor 2 1 =
      Items startCursor treeAbs contAbs [] startCursor 2 0 ∧
    (validCursor startCursor [entryX, entryC] startCursor →
      ∃ next, Items startCursor treeAbs contAbs [] startCursor 2 1 =
        .ok ((specPage (remaining startCursor [entryX, entryC] startCursor) 2).map
          (itemOf contAbs), next)) :=
  empty_prefix_no_depth_filter startCursor treeAbs contAbs startCursor 2 1 [entryX, entryC]
    (by rfl)

/-- Claim C9, byte-wise prefix filter. With a non-empty prefix and depth 0 the
returned items are those of the entries of the unfiltered page whose full path
has the prefix as a plain string prefix, in page order. The test does not look
at path segments: on the root `/r` holding `ab` and `abc/f.txt` the prefix
`/r/ab` selects `/r/abc/f.txt` too. -/
theorem prefix_filter_bytewise (CursorStart : GoString) (tree : Tree) (c : container)
    (pfx cursor : GoString) (k : Nat) (files : List fileinfo)
    (hfl : flatdirs tree c.path = .ok files)
    (hcur : validCursor CursorStart files cursor) (hp : pfx ≠ []) :
    Items CursorStart tree c pfx cursor k 0 =
      .ok (((specPage (remaining CursorStart files cursor) k).filter
              (fun f => decide (pfx <+: fullPath c f))).map (itemOf c),
            specCursor (remaining CursorStart files cursor) k) ∧
    Items startCursor treeAb contAbs "/r/ab".toList startCursor 2 0 =
      .ok ([{ path := "/r/ab".toList, contPrefixLen := 3 },
            { path := "/r/abc/f.txt".toList, contPrefixLen := 3 }], []) := by
  refine ⟨?_, by rfl⟩
  rw [Items_valid CursorStart tree c pfx cursor k 0 files hfl hcur,
    pageItems_of_forall c pfx 0
      (fun f => if pfx <+: fullPath c f then some (itemOf c f) else none)]
  · simp only [Except.ok.injEq, Prod.mk.injEq, and_true]
    generalize specPage (remaining CursorStart files cursor) k = page
    induction page with
    | nil => simp
    | cons f page ih =>
      by_cases h : pfx <+: fullPath c f
      · simp [List.filterMap_cons, List.filter_cons, h, ih]
      · simp [List.filterMap_cons, List.filter_cons, h, ih]
  · intro f hf
    exact pageItem_unlimited c pfx 0 f
      (flatdirs_not_dir tree c.path files hfl f (page_subset_files _ _ _ _ f hf)) hp le_rfl

/-- Claim C9 on the root `/r` with the prefix `/r/a/b`: only `a/b/c.txt` is
returned. -/
theorem prefix_filter_bytewise_witness :
    Items startCursor treeAbs contAbs "/r/a/b".toList startCursor 2 0 =
      .ok ([itemOf contAbs entryC], []) :=
  (prefix_filter_bytewise startCursor treeAbs contAbs "/r/a/b".toList startCursor 2
    [entryX, entryC] (by rfl) (Or.inl rfl) (by decide)).1

/-- Claim C10, cursor arithmetic. Two calls on the same sequence, cursor and
page size that both return give the same next cursor, whatever their prefixes
and depths: it is the cursor computed on the unfiltered sequence. -/
theorem next_cursor_ignores_filter (CursorStart : GoString) (tree : Tree) (c : container)
    (cursor : GoString) (count : Int) (pfx1 pfx2 : GoString) (depth1 depth2 : Int)
    (items1 items2 : List item) (next1 next2 : GoString)
    (h1 : Items CursorStart tree c pfx1 cursor count depth1 = .ok (items1, next1))
    (h2 : Items CursorStart tree c pfx2 cursor count depth2 = .ok (items2, next2)) :
    next1 = next2 ∧
      ∃ files, flatdirs tree c.path = .ok files ∧
        next1 = specCursor (remaining CursorStart files cursor) count.toNat := by
  obtain ⟨files, hfl, hcur, hc⟩ := Items_ok_valid _ _ _ _ _ _ _ _ _ h1
  obtain ⟨k, rfl⟩ := Int.eq_ofNat_of_zero_le hc
  have e1 := (Items_next _ _ _ _ _ _ _ _ _ _ hfl hcur h1).2
  have e2 := (Items_next _ _ _ _ _ _ _ _ _ _ hfl hcur h2).2
  exact ⟨e1.trans e2.symm, files, hfl, by simpa using e1⟩

/-- Claim C10 on the root `/r`, page size 1: without filter the page holds
`a/x.txt`, with the prefix `/r/a/b` it is empty, and both calls return the
cursor `a/b/c.txt`. -/
theorem next_cursor_ignores_filter_witness :
    "a/b/c.txt".toList = "a/b/c.txt".toList ∧
      ∃ files, flatdirs treeAbs contAbs.path = .ok files ∧
        "a/b/c.txt".toList = specCursor (remaining startCursor files startCursor) (1 : Int).toNat :=
  next_cursor_ignores_filter startCursor treeAbs contAbs startCursor 1 [] "/r/a/b".toList 0 0
    [itemOf contAbs entryX] [] "a/b/c.txt".toList "a/b/c.txt".toList (by rfl) (by rfl)

/-- Claim C11, output of the tree flattener. For a tree walked without error (no
call of the walk carries an error, and the path of every visited file can be
made relative to the root) `flatdirs` returns a sequence; its entries are
exactly the visited files that are not directories, each once (the sequence,
read as pairs of file information and name, is a rearrangement of those files
in walk order, each named by its path relative to the root), and none of its
entries is a directory. -/
theorem flatdirs_lists_files (tree : Tree) (path : GoString)
    (herr : ∀ call ∈ tree, call.err = none)
    (hrel : ∀ call ∈ tree, call.info.isDir = false →
      (filepath.Rel path call.p).toBool = true) :
    ∃ files, flatdirs tree path = .ok files ∧
      (files.map (fun f => (f.FileInfo, Except.ok f.Name))).Perm
        ((tree.filter (fun call => !call.info.isDir)).map
          (fun call => (call.info, filepath.Rel path call.p))) ∧
      ∀ f ∈ files, f.IsDir = false := by
  have hrel1 : ∀ call ∈ tree, call.info.isDir = false →
      ∃ name, filepath.Rel path call.p = .ok name := by
    intro call hc hd
    have := hrel call hc hd
    cases hr : filepath.Rel path call.p with
    | error e => rw [hr] at this; simp [Except.toBool] at this
    | ok name => exact ⟨name, rfl⟩
  obtain ⟨list, hlist⟩ := Walk_flatdirsFn_total path tree [] herr hrel1
  have hfl : flatdirs tree path = .ok (sort.Slice list (fun a b =>
      decide (strings.Count a.Name separator < strings.Count b.Name separator))) := by
    unfold flatdirs
    rw [hlist]
  refine ⟨_, hfl, ?_, flatdirs_not_dir tree path _ hfl⟩
  rw [← walkedFile_map path tree hrel1, flatdirs_eq tree path _ hfl]
  exact (Slice_perm _ _).map _

/-- Claim C11 on the root `/r` holding `a/b/c.txt` and `a/x.txt`. -/
theorem flatdirs_lists_files_witness :
    ∃ files, flatdirs treeAbs contAbs.path = .ok files ∧
      (files.map (fun f => (f.FileInfo, Except.ok f.Name))).Perm
        ((treeAbs.filter (fun call => !call.info.isDir)).map
          (fun call => (call.info, filepath.Rel contAbs.path call.p))) ∧
      ∀ f ∈ files, f.IsDir = false :=
  flatdirs_lists_files treeAbs contAbs.path (by decide) (by decide)

/-- Claim C13, size check of `Put`. When the directory creation, the file
creation and the copy succeed with `n` bytes copied, `Put` fails with the error
`bad size` (and returns no item) exactly when the declared size is positive and
differs from `n`; in every other case, so for every declared size `≤ 0`, it
returns the item. -/
theorem put_size_check {Reader : Type} (sys : System Reader) (c : container)
    (name : GoString) (r : Reader) (size n : Int)
    (hmk : ∀ dir, sys.MkdirAll dir = none)
    (hcr : ∀ path, sys.Create path = none)
    (hcp : ∀ path, sys.Copy path r = (n, none)) :
    (Put sys c name r size = .error (.errorsNew "bad size".toList) ↔ 0 < size ∧ n ≠ size) ∧
    (¬ (0 < size ∧ n ≠ size) → ∃ it, Put sys c name r size = .ok it) ∧
    (size ≤ 0 → ∃ it, Put sys c name r size = .ok it) := by
  unfold Put
  simp only [hmk, hcr, hcp]
  by_cases h : size > 0 ∧ n ≠ size
  · rw [if_pos h]
    refine ⟨⟨fun _ => h, fun _ => rfl⟩, fun hn => absurd h hn, fun h0 => ?_⟩
    exact absurd h.1 (not_lt.2 h0)
  · rw [if_neg h]
    refine ⟨⟨fun hbad => ?_, fun hn => absurd hn h⟩, fun _ => ⟨_, rfl⟩, fun _ => ⟨_, rfl⟩⟩
    cases hbad

/-- Claim C13 on a stream of 5 bytes with the declared size 4. -/
theorem put_size_check_witness :
    (Put sampleSystem contAbs "a/new.txt".toList "hello".toList 4 =
        .error (.errorsNew "bad size".toList) ↔ (0 : Int) < 4 ∧ (5 : Int) ≠ 4) ∧
    (¬ ((0 : Int) < 4 ∧ (5 : Int) ≠ 4) →
      ∃ it, Put sampleSystem contAbs "a/new.txt".toList "hello".toList 4 = .ok it) ∧
    ((4 : Int) ≤ 0 →
      ∃ it, Put sampleSystem contAbs "a/new.txt".toList "hello".toList 4 = .ok it) :=
  put_size_check sampleSystem contAbs "a/new.txt".toList "hello".toList 4 5 (fun _ => rfl)
    (fun _ => rfl) (fun _ => rfl)

/-- Claim C14, classification of a single-item fetch. For a container with an
absolute root, `Item(id)` works on the resolved path (an absolute id itself,
any other id joined to the root): it fails with `ErrNotFound` when that path
does not exist, fails with the error `unexpected directory` when it exists and
is a directory, and returns an item whose path is the resolved path when it
exists and is not a directory. -/
theorem item_classification {Reader : Type} (sys : System Reader) (c : container)
    (id : GoString) (habs : filepath.IsAbs c.path = true) :
    (filepath.IsAbs id = true → resolvedPath c id = id) ∧
    (filepath.IsAbs id = false → resolvedPath c id = filepath.Join [c.path, id]) ∧
    (∀ err, sys.Stat (resolvedPath c id) = (none, some err) → os.IsNotExist (some err) = true →
      Item sys c id = .error (.err .ErrNotFound)) ∧
    (∀ info, sys.Stat (resolvedPath c id) = (some info, none) → info.isDir = true →
      Item sys c id = .error (.err (.errorsNew "unexpected directory".toList))) ∧
    (∀ info, sys.Stat (resolvedPath c id) = (some info, none) → info.isDir = false →
      Item sys c id = .ok { path := resolvedPath c id,
                            contPrefixLen := (c.path.length : Int) + 1 }) := by
  refine ⟨fun h => by simp [resolvedPath, h], fun h => by simp [resolvedPath, h], ?_, ?_, ?_⟩
  · intro err hs hne
    rw [Item_eq, hs]
    simp [hne]
  · intro info hs hd
    rw [Item_eq, hs]
    simp [os.IsNotExist, hd]
  · intro info hs hd
    obtain ⟨s, hs1⟩ := (IsAbs_iff c.path).1 habs
    obtain ⟨t, ht⟩ := resolvedPath_rooted c id habs
    obtain ⟨rel, hrel⟩ := Rel_rooted s t
    rw [Item_eq, hs]
    have hrel2 : filepath.Rel c.path (resolvedPath c id) = .ok rel := by
      rw [hs1, ht]; exact hrel
    simp [os.IsNotExist, hd, hrel2]

/-- Claim C14 on the root `/r`: the id `a/x.txt` resolves to `/r/a/x.txt`, a
regular file, and the item of that path is returned. -/
theorem item_classification_witness :
    resolvedPath contAbs "a/x.txt".toList = "/r/a/x.txt".toList ∧
      Item sampleSystem contAbs "a/x.txt".toList =
        .ok { path := resolvedPath contAbs "a/x.txt".toList,
              contPrefixLen := (contAbs.path.length : Int) + 1 } :=
  ⟨by rfl, (item_classification sampleSystem contAbs "a/x.txt".toList (by rfl)).2.2.2.2
    (sampleInfo "x.txt" false) (by rfl) (by rfl)⟩

/-- Claim C15, what the code does instead: when `os.Stat` of the resolved path
fails with an error that is not "not exist", the error is not returned; the
code goes on to `info.IsDir()` with the nil `info` and `Item` stops with the
run-time panic "nil pointer dereference". -/
theorem item_stat_failure_panics {Reader : Type} (sys : System Reader) (c : container)
    (id : GoString) (err : GoError)
    (hs : sys.Stat (resolvedPath c id) = (none, some err))
    (hne : os.IsNotExist (some err) = false) :
    Item sys c id = .error .nilDereference := by
  rw [Item_eq, hs]
  simp [hne]

/-- Claim C15 on the root `/r`: the stat of `/r/locked/f` fails with
"permission denied" and `Item` panics. -/
theorem item_stat_failure_panics_witness :
    Item sampleSystem contAbs "locked/f".toList = .error .nilDereference :=
  item_stat_failure_panics sampleSystem contAbs "locked/f".toList (.os EACCES) (by rfl)
    (by rfl)

/-- Claim C16, short pages. A call with page size `k ≥ 0` that returns gives at
most `k` items; and a page can be empty while the cursor advances: on the root
`/r` holding `a/x.txt` and `a/b/c.txt`, the call with the prefix `/zzz` and page
size 1 from the start sentinel returns no item and the cursor `a/b/c.txt`. -/
theorem short_page_anomaly (CursorStart : GoString) (tree : Tree) (c : container)
    (pfx cursor : GoString) (k : Nat) (depth : Int) (items : List item) (next : GoString)
    (h : Items CursorStart tree c pfx cursor k depth = .ok (items, next)) :
    items.length ≤ k ∧
      ∃ (tree1 : Tree) (c1 : container) (pfx1 next1 : GoString) (k1 : Nat),
        pfx1 ≠ [] ∧ 1 ≤ k1 ∧ next1 ≠ [] ∧
          Items CursorStart tree1 c1 pfx1 CursorStart k1 0 = .ok ([], next1) := by
  constructor
  · obtain ⟨files, hfl, hcur, _⟩ := Items_ok_valid _ _ _ _ _ _ _ _ _ h
    have hp := (Items_next _ _ _ _ _ _ _ _ _ _ hfl hcur h).1
    exact (pageItems_length_le _ _ _ _ _ hp).trans (specPage_length_le _ _)
  · refine ⟨treeAbs, contAbs, "/zzz".toList, "a/b/c.txt".toList, 1, by decide, by decide,
      by decide, ?_⟩
    rw [Items_valid CursorStart treeAbs contAbs _ CursorStart 1 0 [entryX, entryC] (by rfl)
      (Or.inl rfl)]
    have hr : remaining CursorStart [entryX, entryC] CursorStart = [entryX, entryC] := by
      simp [remaining]
    rw [hr]
    rfl

/-- Claim C16 on the root `/r` with the prefix `/zzz` and page size 1. -/
theorem short_page_anomaly_witness :
    ([] : List item).length ≤ 1 ∧
      ∃ (tree1 : Tree) (c1 : container) (pfx1 next1 : GoString) (k1 : Nat),
        pfx1 ≠ [] ∧ 1 ≤ k1 ∧ next1 ≠ [] ∧
          Items startCursor tree1 c1 pfx1 startCursor k1 0 = .ok ([], next1) :=
  short_page_anomaly startCursor treeAbs contAbs "/zzz".toList startCursor 1 0 []
    "a/b/c.txt".toList (by rfl)

/-- Pagination where no call panics. For a sequence of `n` entries with
pairwise distinct names, none of them the start sentinel, and a page size
`k ≥ 1`: every non-empty cursor a call returns names an entry of the sequence,
so that no call with it fails with `ErrBadCursor`, and fewer entries remain
from it than from the cursor of the call; and when the prefix is empty, or the
depth is unlimited, or no entry has the prefix as its whole full path, the loop
from the start sentinel returns after exactly `max(1, ceil(n / k))` calls, one
page per call. -/
theorem listPages_terminates (CursorStart : GoString) (tree : Tree) (c : container)
    (pfx : GoString) (k : Nat) (depth : Int) (files : List fileinfo)
    (hfl : flatdirs tree c.path = .ok files)
    (hnd : (files.map fileinfo.Name).Nodup)
    (hst : ∀ f ∈ files, f.Name ≠ CursorStart)
    (hk : 1 ≤ k) :
    (∀ cursor items next,
      Items CursorStart tree c pfx cursor k depth = .ok (items, next) → next ≠ [] →
        (∃ f ∈ files, f.Name = next) ∧
        (∀ pfx2 count2 depth2,
          Items CursorStart tree c pfx2 next count2 depth2 ≠ .error (.err .ErrBadCursor)) ∧
        (remaining CursorStart files next).length <
          (remaining CursorStart files cursor).length) ∧
    ((pfx = [] ∨ depth ≤ 0 ∨ ∀ f ∈ files, fullPath c f ≠ pfx) →
      ∀ fuel, expectedCalls files.length k ≤ fuel →
        ∃ pages, listPages CursorStart tree c pfx k depth fuel CursorStart = some (.ok pages) ∧
          pages.length = expectedCalls files.length k) := by
  constructor
  · intro cursor items next hret hne
    obtain ⟨files1, hfl1, hcur, _⟩ := Items_ok_valid _ _ _ _ _ _ _ _ _ hret
    rw [hfl] at hfl1
    cases hfl1
    have hnext := (Items_next _ _ _ _ _ _ _ _ _ _ hfl hcur hret).2
    have hsuf := remaining_suffix CursorStart cursor files
    have hkR : k < (remaining CursorStart files cursor).length := by
      by_contra hk2
      apply hne
      rw [hnext]
      unfold specCursor
      rw [dif_neg hk2]
    obtain ⟨hv, hrem1⟩ := remaining_next CursorStart files _ k hnd hst hsuf hkR
    rw [← hnext] at hv hrem1
    refine ⟨hv, ?_, ?_⟩
    · intro pfx2 count2 depth2
      exact Items_not_bad_cursor CursorStart tree c pfx2 next count2 depth2 files hfl (Or.inr hv)
    · rw [hrem1, List.length_drop]
      omega
  · intro hsafe fuel hfuel
    have hs : ∀ f ∈ files, ∃ r, pageItem c pfx depth f = .ok r := by
      intro f hf
      apply pageItem_total_of
      rcases hsafe with h | h | h
      · exact Or.inl h
      · exact Or.inr (Or.inl h)
      · exact Or.inr (Or.inr (h f hf))
    exact listPages_calls CursorStart tree c pfx k depth files hfl hnd hst hk hs fuel files
      CursorStart (List.suffix_refl _) (Or.inl rfl) (by simp [remaining]) hfuel

/-- Claim C17, what the code does instead: the pagination loop does not always
reach the cursor `""`. When an entry of the first page has the non-empty prefix
as its whole full path and the depth is at least 1, the first call of the loop
from the start sentinel stops with the run-time panic "index out of range" (the
`p[0]` of claim C7), whatever the page size `k ≥ 1` and the number of calls
allowed. -/
theorem pagination_loop_panics (CursorStart : GoString) (tree : Tree) (c : container)
    (pfx : GoString) (k : Nat) (depth : Int) (files : List fileinfo) (f : fileinfo)
    (fuel : Nat)
    (hfl : flatdirs tree c.path = .ok files)
    (hf : f ∈ specPage files k)
    (hp : pfx ≠ []) (hd : 1 ≤ depth) (heq : fullPath c f = pfx) :
    listPages CursorStart tree c pfx k depth (fuel + 1) CursorStart =
      some (.error .indexOutOfRange) := by
  have hrem : remaining CursorStart files CursorStart = files := by simp [remaining]
  have hcall : Items CursorStart tree c pfx CursorStart k depth = .error .indexOutOfRange := by
    rw [Items_valid CursorStart tree c pfx CursorStart k depth files hfl (Or.inl rfl), hrem,
      pageItems_exact c pfx depth _ f hf
        (pageItem_exact c pfx depth f
          (flatdirs_not_dir tree c.path files hfl f (specPage_subset _ _ f hf)) hp hd heq)]
  unfold listPages
  rw [hcall]

/-- Claim C17 on the root `/r` holding `ab` and `abc/f.txt` (distinct names,
none the start sentinel), with the prefix `/r/ab`, depth 1 and page size 1: the
loop panics on its first call. -/
theorem pagination_loop_panics_witness :
    ([entryAb, entryF].map fileinfo.Name).Nodup ∧
      (∀ f ∈ [entryAb, entryF], f.Name ≠ startCursor) ∧
      listPages startCursor treeAb contAbs "/r/ab".toList 1 1 (2 + 1) startCursor =
        some (.error .indexOutOfRange) :=
  ⟨by decide, by decide,
    pagination_loop_panics startCursor treeAb contAbs "/r/ab".toList 1 1 [entryAb, entryF]
      entryAb 2 (by rfl) (by decide) (by decide) (by decide) (by rfl)⟩

/-- Claim C18, page size zero. On a non-empty remaining sequence a call with
page size 0 returns no item and the name of the first remaining entry as next
cursor; the call with that cursor and page size 0 returns the same result; and
the pagination loop never ends, whatever the number of calls allowed. -/
theorem zero_page_size_no_progress (CursorStart : GoString) (tree : Tree) (c : container)
    (pfx cursor : GoString) (depth : Int) (files : List fileinfo) (first : fileinfo)
    (rest : List fileinfo)
    (hfl : flatdirs tree c.path = .ok files)
    (hcur : validCursor CursorStart files cursor)
    (hrem : remaining CursorStart files cursor = first :: rest) :
    Items CursorStart tree c pfx cursor 0 depth = .ok ([], first.Name) ∧
      Items CursorStart tree c pfx first.Name 0 depth = .ok ([], first.Name) ∧
      ∀ fuel, listPages CursorStart tree c pfx 0 depth fuel cursor = none := by
  obtain ⟨hv, first2, rest2, hrem2, hname⟩ :=
    remaining_first CursorStart files cursor first rest hrem
  refine ⟨Items_zero CursorStart tree c pfx cursor depth files first rest hfl hcur hrem, ?_,
    fun fuel => listPages_zero CursorStart tree c pfx depth files hfl fuel cursor first rest
      hcur hrem⟩
  have h2 := Items_zero CursorStart tree c pfx first.Name depth files first2 rest2 hfl hv hrem2
  rw [hname] at h2
  exact h2

/-- Claim C18 on the root `/r` from the start sentinel. -/
theorem zero_page_size_no_progress_witness :
    Items startCursor treeAbs contAbs [] startCursor 0 0 = .ok ([], entryX.Name) ∧
      Items startCursor treeAbs contAbs [] entryX.Name 0 0 = .ok ([], entryX.Name) ∧
      ∀ fuel, listPages startCursor treeAbs contAbs [] 0 0 fuel startCursor = none :=
  zero_page_size_no_progress startCursor treeAbs contAbs [] startCursor 0 [entryX, entryC]
    entryX [entryC] (by rfl) (Or.inl rfl) (by rfl)

/-- Claim C19, monotone depth bound. For depths `1 ≤ d1 ≤ d2`, when the calls
at `d1` and at `d2` both return, the items returned at `d1` are among those
returned at `d2`, in the same relative order; and the call at depth 0 returns
too, with the same next cursor and with the items of either call among its own,
in the same relative order. -/
theorem depth_bound_monotone (CursorStart : GoString) (tree : Tree) (c : container)
    (pfx cursor : GoString) (count d1 d2 : Int) (items1 items2 : List item)
    (next1 next2 : GoString)
    (h1 : 1 ≤ d1) (h12 : d1 ≤ d2)
    (hr1 : Items CursorStart tree c pfx cursor count d1 = .ok (items1, next1))
    (hr2 : Items CursorStart tree c pfx cursor count d2 = .ok (items2, next2)) :
    items1.Sublist items2 ∧
      ∃ items0, Items CursorStart tree c pfx cursor count 0 = .ok (items0, next1) ∧
        items1.Sublist items0 ∧ items2.Sublist items0 := by
  obtain ⟨files, hfl, hcur, hc⟩ := Items_ok_valid _ _ _ _ _ _ _ _ _ hr1
  obtain ⟨k, rfl⟩ := Int.eq_ofNat_of_zero_le hc
  obtain ⟨hp1, hn1⟩ := Items_next _ _ _ _ _ _ _ _ _ _ hfl hcur hr1
  obtain ⟨hp2, _⟩ := Items_next _ _ _ _ _ _ _ _ _ _ hfl hcur hr2
  obtain ⟨items0, hp0⟩ := pageItems_unlimited_total c pfx 0 le_rfl
    (specPage (remaining CursorStart files cursor) k)
  refine ⟨pageItems_mono c pfx d1 d2 (Or.inl ⟨h1, h12⟩) _ _ _ hp1 hp2, items0, ?_,
    pageItems_mono c pfx d1 0 (Or.inr le_rfl) _ _ _ hp1 hp0,
    pageItems_mono c pfx d2 0 (Or.inr le_rfl) _ _ _ hp2 hp0⟩
  rw [Items_valid CursorStart tree c pfx cursor k 0 files hfl hcur, hp0, hn1]

/-- Claim C19 on the root `/r` with the prefix `/r/a`: depth 1 returns
`a/x.txt`, depth 2 returns both files. -/
theorem depth_bound_monotone_witness :
    [itemOf contAbs entryX].Sublist [itemOf contAbs entryX, itemOf contAbs entryC] ∧
      ∃ items0, Items startCursor treeAbs contAbs "/r/a".toList startCursor 2 0 =
          .ok (items0, []) ∧
        [itemOf contAbs entryX].Sublist items0 ∧
        [itemOf contAbs entryX, itemOf contAbs entryC].Sublist items0 :=
  depth_bound_monotone startCursor treeAbs contAbs "/r/a".toList startCursor 2 1 2
    [itemOf contAbs entryX] [itemOf contAbs entryX, itemOf contAbs entryC] [] []
    (by decide) (by decide) (by rfl) (by rfl)

end StowLocal
